import Mathlib

/-!
# Judge driver (`src/backend/main.cpp`): shallow embedding and verified properties

C++ `std::string` is embedded as `List Char` (one `Char` per byte), `long` and `int`
as `Int`, `std::vector` as `List`.  The input stream `cin` is an explicit state
(`IStream`) carrying the unread characters and the `eofbit` / `failbit` flags.
-/

namespace Loco

/-- A C++ `std::string`, one `Char` per byte. -/
abbrev Str := List Char

/-! ## Case results and the verdict fold (main.cpp 124-131, 188-202) -/

/-- The record `struct TestResult` (main.cpp 124-131). -/
structure TestResult where
  status : Str
  time_ms : Int
  memory_kb : Int
  output : Str
  error : Str
  input_description : Str

/-- The status literal `"passed"`. -/
def passed : Str := "passed".toList
/-- The status literal `"failed"`. -/
def failed : Str := "failed".toList
/-- The status literal `"runtime_error"`. -/
def runtime_error : Str := "runtime_error".toList
/-- The status literal `"timeout"`. -/
def timeout : Str := "timeout".toList
/-- The verdict literal `"ACCEPTED"`. -/
def ACCEPTED : Str := "ACCEPTED".toList
/-- The verdict literal `"TLE"`. -/
def TLE : Str := "TLE".toList
/-- The verdict literal `"RUNTIME_ERROR"`. -/
def RUNTIME_ERROR : Str := "RUNTIME_ERROR".toList
/-- The verdict literal `"WRONG_ANSWER"`. -/
def WRONG_ANSWER : Str := "WRONG_ANSWER".toList

/-- The three accumulators of the aggregation loop (main.cpp 189-191). -/
structure Verdict where
  final_verdict : Str
  max_runtime : Int
  max_memory : Int

/-- One iteration of `for (const auto& res : results)` (main.cpp 193-202). -/
def aggregateStep (acc : Verdict) (res : TestResult) : Verdict :=
  { final_verdict :=
      if res.status ≠ passed ∧ acc.final_verdict = ACCEPTED then
        if res.status = timeout then TLE
        else if res.status = runtime_error then RUNTIME_ERROR
        else if res.status = failed then WRONG_ANSWER
        else res.status
      else acc.final_verdict
    max_runtime := if res.time_ms > acc.max_runtime then res.time_ms else acc.max_runtime
    max_memory := if res.memory_kb > acc.max_memory then res.memory_kb else acc.max_memory }

/-- The whole aggregation loop, started from `"ACCEPTED"`, `0`, `0` (main.cpp 189-202). -/
def aggregate (results : List TestResult) : Verdict :=
  results.foldl aggregateStep { final_verdict := ACCEPTED, max_runtime := 0, max_memory := 0 }

/-! ## Report escaping and `toJson` (main.cpp 17-43) -/

/-- The function `escapeJSON` (main.cpp 18-26): a loop appending to `res`. -/
def escapeJSON (s : Str) : Str :=
  s.foldl (fun res c =>
    if c = '"' then res ++ ['\\', '"']
    else if c = '\\' then res ++ ['\\', '\\']
    else res ++ [c]) []

/-- The library function `std::to_string` on `int` / `long`: decimal digits, with a
leading `-` for a negative value. -/
def to_string (v : Int) : Str :=
  if v < 0 then '-' :: Nat.toDigits 10 v.natAbs else Nat.toDigits 10 v.natAbs

/-- The loop body of `toJson(const vector<T>&)` (main.cpp 37-40): each element, with a
`,` after every element but the last. -/
def toJsonItems {α : Type} (f : α → Str) : List α → Str
  | [] => []
  | [x] => f x
  | x :: y :: rest => f x ++ ',' :: toJsonItems f (y :: rest)

/-- The function `toJson(const vector<int>&)` (main.cpp 34-43, with `toJson(int)`
of line 28 on the elements). -/
def toJson (v : List Int) : Str :=
  '[' :: toJsonItems to_string v ++ [']']

/-! ## The input stream -/

/-- The state of `std::istream`: the unread characters and the two state bits the
driver depends on. -/
structure IStream where
  rest : List Char
  eofbit : Bool
  failbit : Bool

/-- A fresh stream over a text. -/
def IStream.ofText (t : Str) : IStream := { rest := t, eofbit := false, failbit := false }

/-- The predicate `isspace` in the "C" locale: space, `\t`, `\n`, `\v`, `\f`, `\r`. -/
def isspace (c : Char) : Bool :=
  c = ' ' || c = '\t' || c = '\n' || c = Char.ofNat 11 || c = Char.ofNat 12 || c = '\r'

/-- The extraction `is >> ws` (as specified since C++11): on a stream that is not good
the sentry sets `failbit`; otherwise whitespace is discarded and `eofbit` is set when the
input runs out. The stream then converts to `true` exactly when `failbit` is clear. -/
def IStream.ws (s : IStream) : IStream :=
  if s.eofbit || s.failbit then { s with failbit := true }
  else
    { rest := s.rest.dropWhile isspace
      eofbit := (s.rest.dropWhile isspace).isEmpty
      failbit := false }

/-- The call `is.get(c)` / `is.get()`: on a stream that is not good the sentry sets
`failbit`; at the end of input it sets `eofbit` and `failbit`; otherwise it extracts one
character. -/
def IStream.get (s : IStream) : Option Char × IStream :=
  if s.eofbit || s.failbit then (none, { s with failbit := true })
  else
    match s.rest with
    | [] => (none, { s with eofbit := true, failbit := true })
    | c :: r => (some c, { s with rest := r })

/-- The call `is.peek()`: on a stream that is not good the sentry sets `failbit` and the
result is `EOF` (`none`); at the end of input it sets `eofbit` and the result is `EOF`;
otherwise the next character, not extracted. -/
def IStream.peek (s : IStream) : Option Char × IStream :=
  if s.eofbit || s.failbit then (none, { s with failbit := true })
  else
    match s.rest with
    | [] => (none, { s with eofbit := true })
    | c :: _ => (some c, s)

/-! ## The parser (main.cpp 45-86) -/

/-- The record `struct JsonValue` (main.cpp 46-50). -/
inductive JsonValue where
  | mk (raw : Str) (array : List JsonValue) (is_array : Bool)

/-- Field `raw`. -/
def JsonValue.raw : JsonValue → Str
  | .mk r _ _ => r

/-- Field `array`. -/
def JsonValue.array : JsonValue → List JsonValue
  | .mk _ a _ => a

/-- Field `is_array`. -/
def JsonValue.is_array : JsonValue → Bool
  | .mk _ _ b => b

/-- A default-constructed `JsonValue v;`. -/
def JsonValue.empty : JsonValue := .mk [] [] false

/-- The statement `if (is >> ws && is.peek() == ch) is.get();` (main.cpp 58, 65, 67). -/
def skipIf (ch : Char) (s : IStream) : IStream :=
  if (s.ws).failbit then s.ws
  else if (s.ws).peek.1 = some ch then ((s.ws).peek.2).get.2
  else (s.ws).peek.2

/-- The loop of the `'"'` branch (main.cpp 71-75), run on the unread characters of a
good stream: `s` and `prev` are the locals of the same names. The loop ends at the
first `"` whose predecessor is not a backslash, or when `is.get(c)` fails at the end of
input (which sets `eofbit` and `failbit`). -/
def stringLoop (s : Str) (prev : Char) : List Char → Str × IStream
  | [] => (s, { rest := [], eofbit := true, failbit := true })
  | c :: r =>
    if c = '"' ∧ prev ≠ '\\' then (s, { rest := r, eofbit := false, failbit := false })
    else stringLoop (s ++ [c]) c r

/-- The loop of the bare-token branch (main.cpp 79-81), run on the unread characters of
a good stream: characters are taken until `peek` gives `EOF` (which sets `eofbit`),
whitespace, `,`, `]` or `}`. -/
def tokenLoop (s : Str) : List Char → Str × IStream
  | [] => (s, { rest := [], eofbit := true, failbit := false })
  | c :: r =>
    if isspace c ∨ c = ',' ∨ c = ']' ∨ c = '}' then
      (s, { rest := c :: r, eofbit := false, failbit := false })
    else tokenLoop (s ++ [c]) r

/-- The loop `while (is >> ws && is.peek() != ']')` of the `'['` branch
(main.cpp 56-59); `p` is the recursive call `parseJson(is)`, the first argument bounds
the number of iterations. -/
def arrayLoop (p : IStream → Option (JsonValue × IStream)) :
    Nat → IStream → List JsonValue → Option (List JsonValue × IStream)
  | 0, _, _ => none
  | k + 1, s, acc =>
    if (s.ws).failbit then some (acc, s.ws)
    else if (s.ws).peek.1 = some ']' then some (acc, (s.ws).peek.2)
    else
      match p (s.ws).peek.2 with
      | none => none
      | some (v, s1) => arrayLoop p k (skipIf ',' s1) (acc ++ [v])

/-- The loop `while (is >> ws && is.peek() != '}')` of the `'{'` branch
(main.cpp 63-68): a key, an optional `:`, a value, an optional `,`. -/
def objectLoop (p : IStream → Option (JsonValue × IStream)) :
    Nat → IStream → List JsonValue → Option (List JsonValue × IStream)
  | 0, _, _ => none
  | k + 1, s, acc =>
    if (s.ws).failbit then some (acc, s.ws)
    else if (s.ws).peek.1 = some '}' then some (acc, (s.ws).peek.2)
    else
      match p (s.ws).peek.2 with
      | none => none
      | some (key, s1) =>
        match p (skipIf ':' s1) with
        | none => none
        | some (val, s2) => objectLoop p k (skipIf ',' s2) (acc ++ [key, val])

/-- The function `parseJson` (main.cpp 52-86) with a bound on the recursion depth and on
the iterations of each loop; `none` means the bound was too small. -/
def parseJsonFuel : Nat → IStream → Option (JsonValue × IStream)
  | 0, _ => none
  | n + 1, s =>
    if (s.ws).failbit then some (JsonValue.empty, s.ws)
    else
      match (s.ws).get with
      | (none, s1) => some (JsonValue.empty, s1)
      | (some c, s1) =>
        if c = '[' then
          match arrayLoop (parseJsonFuel n) n s1 [] with
          | none => none
          | some (arr, s2) => some (.mk [] arr true, s2.get.2)
        else if c = '{' then
          match objectLoop (parseJsonFuel n) n s1 [] with
          | none => none
          | some (arr, s2) => some (.mk [] arr false, s2.get.2)
        else if c = '"' then
          some (.mk (stringLoop [] (Char.ofNat 0) s1.rest).1 [] false,
            (stringLoop [] (Char.ofNat 0) s1.rest).2)
        else
          some (.mk (tokenLoop [c] s1.rest).1 [] false, (tokenLoop [c] s1.rest).2)

/-- A measure of what a stream can still yield: `0` once `failbit` is set, `1` once
`eofbit` is set, else twice the number of unread characters plus two. -/
def IStream.weight (s : IStream) : Nat :=
  if s.failbit then 0 else if s.eofbit then 1 else 2 * s.rest.length + 2

/-- The function `parseJson` (main.cpp 52-86): the bounded parser run with a bound that
always suffices (`parseJsonFuel_total`). -/
def parseJson (s : IStream) : JsonValue × IStream :=
  (parseJsonFuel (s.weight + 1) s).getD (JsonValue.empty, s)

/-- The image of one character under the escaping rule of the report format: a
backslash before `"` and before a backslash, every other character as it is. -/
def escapeChar (c : Char) : Str :=
  if c = '"' then ['\\', '"'] else if c = '\\' then ['\\', '\\'] else [c]

mutual
/-- All nodes of a parsed tree: the node itself and the nodes of its children. -/
def JsonValue.nodes : JsonValue → List JsonValue
  | .mk r a b => .mk r a b :: nodesList a
/-- All nodes of a list of parsed trees. -/
def nodesList : List JsonValue → List JsonValue
  | [] => []
  | v :: vs => v.nodes ++ nodesList vs
end

/-! ## Typed accessors (main.cpp 88-96) -/

/-- The value of a run of decimal digits, as `strtol` accumulates it. -/
def digitsValue (ds : List Char) : Nat :=
  ds.foldl (fun a d => 10 * a + (d.toNat - 48)) 0

/-- The library function `std::stoi(str)` (base 10): leading whitespace is skipped, an
optional sign is read, then the longest run of decimal digits; what follows the digits is
ignored. `none` stands for the exception it throws: `std::invalid_argument` when there
is no digit, `std::out_of_range` when the value does not fit an `int`. -/
def stoi (s : Str) : Option Int :=
  let body := s.dropWhile isspace
  let unsigned := if body.head? = some '-' ∨ body.head? = some '+' then body.tail else body
  let ds := unsigned.takeWhile Char.isDigit
  if ds = [] then none
  else
    let v : Int := if body.head? = some '-' then -(digitsValue ds : Int) else digitsValue ds
    if v < -2147483648 ∨ 2147483647 < v then none else some v

/-- The accessor `asInt` (main.cpp 88). -/
def asInt (v : JsonValue) : Option Int := stoi v.raw

/-- The loop of `asIntArray` (main.cpp 92): `asInt` on each child in order, the results
appended in order; the first exception ends it. -/
def asIntArrayLoop : List JsonValue → Option (List Int)
  | [] => some []
  | item :: rest =>
    match asInt item with
    | none => none
    | some x =>
      match asIntArrayLoop rest with
      | none => none
      | some xs => some (x :: xs)

/-- The accessor `asIntArray` (main.cpp 91-93). -/
def asIntArray (v : JsonValue) : Option (List Int) := asIntArrayLoop v.array

/-! ## The candidate (main.cpp 104-121) -/

/-- Arithmetic on `int`: the result reduced to the 32-bit two's-complement range. -/
def wrapInt (x : Int) : Int := (x + 2147483648) % 4294967296 - 2147483648

/-- The loop of `Solution::twoSum` (main.cpp 108-116). The map `indexByValue` is an
association list, newest binding first, so that `indexByValue[x] = i` overrides an older
binding of `x`; `i` is the loop counter. -/
def twoSumLoop (target : Int) : List Int → Int → List (Int × Int) → List Int
  | [], _, _ => []
  | x :: rest, i, indexByValue =>
    match indexByValue.lookup (wrapInt (target - x)) with
    | some j => [j, i]
    | none => twoSumLoop target rest (i + 1) ((x, i) :: indexByValue)

/-- The method `Solution::twoSum` (main.cpp 106-120). -/
def twoSum (nums : List Int) (target : Int) : List Int :=
  twoSumLoop target nums 0 []

/-! ## The case loop of `main` (main.cpp 133-186) -/

/-- How the call of the candidate inside the `alarm` / `setjmp` window ends. -/
inductive Outcome where
  /-- The call returns the vector `res`. -/
  | returned (res : List Int)
  /-- The call throws a `std::exception` whose `what()` is `msg`. -/
  | threw (msg : Str)
  /-- The call throws something that is not a `std::exception`. -/
  | threwOther
  /-- The alarm fires first: `longjmp` back to `setjmp`, which then returns non-zero. -/
  | deadline

/-- What the environment contributes to one case: the outcome of the candidate call and
the two measurements taken after it (main.cpp 180-183). -/
structure CaseRun where
  outcome : Outcome
  time_ms : Int
  memory_kb : Int

/-- The ways `main` ends without reaching `return`. -/
inductive Fault where
  /-- An exception leaves `main` (`stoi` throws outside the `try`): `std::terminate`. -/
  | uncaught
  /-- A `vector` is indexed past its end (`inputObj.array[0]`, `inputObj.array[1]`):
  undefined behaviour. -/
  | out_of_bounds

/-- The loop that looks up `"input"` and `"expected"` (main.cpp 148-151), on the children
still to visit; the pair holds `inputObj` and `expectedVal`. -/
def keyLoop : List JsonValue → JsonValue × JsonValue → JsonValue × JsonValue
  | key :: val :: rest, (inputObj, expectedVal) =>
    keyLoop rest
      (if key.raw = "input".toList then val else inputObj,
       if key.raw = "expected".toList then val else expectedVal)
  | _, found => found

/-- The values `status`, `output_val` and `error_msg` after the `setjmp` block
(main.cpp 142-144, 163-178). -/
def classify (expected : List Int) : Outcome → Str × Str × Str
  | .returned res => (if res ≠ expected then failed else passed, toJson res, [])
  | .threw msg => (runtime_error, [], msg)
  | .threwOther => (runtime_error, [], "Unknown error".toList)
  | .deadline => (timeout, [], [])

/-- The text `input_desc` built at main.cpp 154 and 156, starting from the empty string. -/
def inputDesc (nums : List Int) (target : Int) : Str :=
  let d1 : Str := [] ++ ((if ([] : Str).isEmpty then [] else ", ".toList) ++ toJson nums)
  d1 ++ ((if d1.isEmpty then [] else ", ".toList) ++ to_string target)

/-- The extraction of main.cpp 147-157: `nums`, `target` and `expected` of one test case,
in the order the source evaluates them. -/
def extractCase (tc : JsonValue) : Except Fault (List Int × Int × List Int) :=
  let found := keyLoop tc.array (JsonValue.empty, JsonValue.empty)
  match found.1.array[0]? with
  | none => .error .out_of_bounds
  | some first =>
    match asIntArray first with
    | none => .error .uncaught
    | some nums =>
      match found.1.array[1]? with
      | none => .error .out_of_bounds
      | some second =>
        match asInt second with
        | none => .error .uncaught
        | some target =>
          match asIntArray found.2 with
          | none => .error .uncaught
          | some expected => .ok (nums, target, expected)

/-- The record pushed at main.cpp 185 for a case with the given extracted values. -/
def caseResult (nums : List Int) (target : Int) (expected : List Int) (run : CaseRun) :
    TestResult :=
  { status := (classify expected run.outcome).1
    time_ms := run.time_ms
    memory_kb := run.memory_kb
    output := (classify expected run.outcome).2.1
    error := (classify expected run.outcome).2.2
    input_description := '[' :: (inputDesc nums target ++ [']']) }

/-- One iteration of `for (auto& tc : root.array)` (main.cpp 141-186); `env` gives the
outcome and the measurements of the candidate call on `nums`, `target`. -/
def runCase (env : List Int → Int → CaseRun) (tc : JsonValue) : Except Fault TestResult :=
  match extractCase tc with
  | .error f => .error f
  | .ok (nums, target, expected) => .ok (caseResult nums target expected (env nums target))

/-- The loop `for (auto& tc : root.array)` (main.cpp 141-186) from case number `i` on;
`env i` is the environment of the candidate call of case `i`. -/
def caseLoop (env : Nat → List Int → Int → CaseRun) :
    Nat → List JsonValue → Except Fault (List TestResult)
  | _, [] => .ok []
  | i, tc :: rest =>
    match runCase (env i) tc with
    | .error f => .error f
    | .ok r =>
      match caseLoop env (i + 1) rest with
      | .error f => .error f
      | .ok rs => .ok (r :: rs)

/-! ## The report (main.cpp 204-219) -/

/-- One element of `test_results` (main.cpp 211-216). -/
def renderResult (r : TestResult) : Str :=
  "\x7b".toList ++ "\"passed\":".toList
    ++ (if r.status = passed then "true".toList else "false".toList) ++ ",".toList
    ++ "\"input\":\"".toList ++ escapeJSON r.input_description ++ "\",".toList
    ++ "\"actual\":\"".toList ++ escapeJSON r.output ++ "\",".toList
    ++ "\"error\":\"".toList ++ escapeJSON r.error ++ "\"".toList
    ++ "\x7d".toList

/-- The text written to `cout` (main.cpp 205-219), `endl` included. -/
def renderReport (v : Verdict) (results : List TestResult) : Str :=
  "\x7b".toList
    ++ ("\"verdict\":\"".toList ++ v.final_verdict ++ "\",".toList)
    ++ ("\"runtime\":".toList ++ to_string v.max_runtime ++ ",".toList)
    ++ ("\"memory\":".toList ++ to_string v.max_memory ++ ",".toList)
    ++ "\"test_results\":[".toList
    ++ toJsonItems renderResult results
    ++ "]\x7d".toList ++ "\n".toList

/-- The function `main` (main.cpp 133-221) on the text of standard input: the exit code
and the text written to standard output, or the fault that ends the process. -/
def mainProgram (env : Nat → List Int → Int → CaseRun) (input : Str) :
    Except Fault (Int × Str) :=
  let root := (parseJson (IStream.ofText input)).1
  if !root.is_array then .ok (1, [])
  else
    match caseLoop env 0 root.array with
    | .error f => .error f
    | .ok results => .ok (0, renderReport (aggregate results) results)

/-- The environment of the program as built: the candidate is `Solution::twoSum`, which
returns; `meas i` are the time and memory measured for case `i`. -/
def twoSumEnv (meas : Nat → Int × Int) : Nat → List Int → Int → CaseRun :=
  fun i nums target =>
    { outcome := .returned (twoSum nums target), time_ms := (meas i).1, memory_kb := (meas i).2 }

/-- The tree of the test case `\x7b"input":[[3,3],6],"expected":[0,1]\x7d`. -/
def sampleCase : JsonValue :=
  .mk [] [.mk "input".toList [] false,
          .mk [] [.mk [] [.mk ['3'] [] false, .mk ['3'] [] false] true, .mk ['6'] [] false] true,
          .mk "expected".toList [] false,
          .mk [] [.mk ['0'] [] false, .mk ['1'] [] false] true] false

/-- The tree of a sequence of integers written in decimal: one scalar child per
integer. -/
def intArrayNode (v : List Int) : JsonValue :=
  .mk [] (v.map (fun x => JsonValue.mk (to_string x) [] false)) true

/-- The compact text of one test case `(nums, target, expected)`:
`\x7b"input":[nums,target],"expected":expected\x7d`. -/
def caseText (c : List Int × Int × List Int) : Str :=
  "\x7b\"input\":[".toList ++ toJson c.1 ++ ",".toList ++ to_string c.2.1
    ++ "],\"expected\":".toList ++ toJson c.2.2 ++ "\x7d".toList

/-- The tree of one test case `(nums, target, expected)`. -/
def caseNode (c : List Int × Int × List Int) : JsonValue :=
  .mk [] [.mk "input".toList [] false,
          .mk [] [intArrayNode c.1, .mk (to_string c.2.1) [] false] true,
          .mk "expected".toList [] false,
          intArrayNode c.2.2] false

/-- The compact text of a battery: the case texts between `[` and `]`, separated by
commas. -/
def batteryText (cases : List (List Int × Int × List Int)) : Str :=
  '[' :: (toJsonItems caseText cases ++ [']'])

/-- The values of type `int`. -/
def inIntRange (x : Int) : Prop := -2147483648 ≤ x ∧ x ≤ 2147483647

instance (x : Int) : Decidable (inIntRange x) := by
  unfold inIntRange
  infer_instance

/-- The report entry of a passed case `(nums, target, expected)`, as it reads in the
output: `\x7b"passed":true,"input":"[nums, target]","actual":"expected","error":""\x7d`. -/
def acceptedEntry (c : List Int × Int × List Int) : Str :=
  "\x7b\"passed\":true,\"input\":\"[".toList ++ toJson c.1 ++ ", ".toList
    ++ to_string c.2.1 ++ "]\",\"actual\":\"".toList ++ toJson c.2.2
    ++ "\",\"error\":\"\"\x7d".toList

/-- The report of an accepted battery, as it reads in the output, with the reported
time `mr` and memory `mm`. -/
def acceptedReport (mr mm : Int) (cases : List (List Int × Int × List Int)) : Str :=
  "\x7b\"verdict\":\"ACCEPTED\",\"runtime\":".toList ++ to_string mr
    ++ ",\"memory\":".toList ++ to_string mm ++ ",\"test_results\":[".toList
    ++ [','].intercalate (cases.map acceptedEntry) ++ "]\x7d\n".toList

/-- A battery outcome used as a concrete instance: passed, timeout, failed. -/
def sampleResults : List TestResult :=
  [⟨passed, 3, 100, [], [], []⟩, ⟨timeout, 5000, 120, [], [], []⟩, ⟨failed, 1, 130, [], [], []⟩]


/-- A grouping with the children `x`, `input`, `input`, `1`, `input`, `2`, `input`: a
value that reads `input`, a repeated key and a last key without value. -/
def sampleKeys : JsonValue :=
  .mk [] [.mk ['x'] [] false, .mk "input".toList [] false,
          .mk "input".toList [] false, .mk ['1'] [] false,
          .mk "input".toList [] false, .mk ['2'] [] false,
          .mk "input".toList [] false] false


/-! ## Outcomes that depend on the input only; the deadline flag -/

/-- The steps of `main` at which the deadline timer is observed or changed: the setup of
a case (main.cpp 142-160), `alarm(seconds)` (162, 175), the candidate call inside the
`try` (165-174), the expiry of the timer (the signal handler and `longjmp`, 15 and 177),
the recording of the result (180-185), the aggregation (189-202), the output (205-219). -/
inductive Step where
  | setup
  | alarm (seconds : Nat)
  | call
  | expire
  | record
  | aggregate
  | output
  deriving DecidableEq

/-- The flag "a deadline is armed" after a step: `alarm(0)` and the expiry clear it,
`alarm(n)` with `n > 0` sets it, the other steps leave it. -/
def armedAfter (armed : Bool) : Step → Bool
  | .alarm 0 => false
  | .alarm (_ + 1) => true
  | .expire => false
  | _ => armed

/-- The steps of one iteration of the case loop (main.cpp 141-186), by the outcome of the
candidate call: on a return and on either `catch` clause control reaches `alarm(0)` at
line 175; on a timeout the timer expires during the call and `longjmp` leads to the
`else` branch at line 177, which does not call `alarm`. -/
def caseSteps : Outcome → List Step
  | .returned _ => [.setup, .alarm 5, .call, .alarm 0, .record]
  | .threw _ => [.setup, .alarm 5, .call, .alarm 0, .record]
  | .threwOther => [.setup, .alarm 5, .call, .alarm 0, .record]
  | .deadline => [.setup, .alarm 5, .call, .expire, .record]

/-- The steps of `main` after parsing, for the outcomes of the candidate calls in case
order: the case loop, then the aggregation and the output. -/
def mainSteps (outcomes : List Outcome) : List Step :=
  (outcomes.map caseSteps).flatten ++ [.aggregate, .output]

/-- Each step of a run paired with the value of the flag when the step begins. -/
def armedAt (armed : Bool) : List Step → List (Step × Bool)
  | [] => []
  | st :: rest => (st, armed) :: armedAt (armedAfter armed st) rest

/-- The flag after a whole run. -/
def armedFinally (armed : Bool) (steps : List Step) : Bool :=
  steps.foldl armedAfter armed


/-- What is left to read, counted for the depth of the parser: `0` once `failbit` is
set, `1` once `eofbit` is set, else the number of unread characters plus two. -/
def IStream.unread (s : IStream) : Nat :=
  if s.failbit then 0 else if s.eofbit then 1 else s.rest.length + 2


/-! ## Texts with layout

A `Doc` is a text seen as its tokens and the whitespace between them: bare tokens,
quoted strings, sequences and groupings, with a whitespace string in every place where
the parser skips whitespace. -/

mutual
/-- A value with its layout. In `arr items close` and `obj members close`, `close` is the
whitespace before the closing bracket. -/
inductive Doc where
  | tok (t : Str)
  | str (t : Str)
  | arr (items : Items) (close : Str)
  | obj (members : Members) (close : Str)
/-- The elements of a sequence: `pre` and `post` are the whitespace before and after the
element. -/
inductive Items where
  | nil
  | cons (pre : Str) (d : Doc) (post : Str) (rest : Items)
/-- The members of a grouping: whitespace, the quoted key, whitespace, `:`, whitespace,
the value, whitespace. -/
inductive Members where
  | nil
  | cons (preKey : Str) (key : Str) (preColon : Str) (preVal : Str) (val : Doc) (post : Str)
      (rest : Members)
end

mutual
/-- The text of a `Doc`, followed by the text `k`. -/
def Doc.render : Doc → Str → Str
  | .tok t, k => t ++ k
  | .str t, k => '"' :: (t ++ '"' :: k)
  | .arr items close, k => '[' :: items.render (close ++ ']' :: k)
  | .obj members close, k => '{' :: members.render (close ++ '}' :: k)
/-- The text of the elements of a sequence, separated by commas, followed by `k`. -/
def Items.render : Items → Str → Str
  | .nil, k => k
  | .cons pre d post rest, k => pre ++ d.render (post ++ rest.more k)
/-- The text of further elements, each preceded by a comma, followed by `k`. -/
def Items.more : Items → Str → Str
  | .nil, k => k
  | .cons pre d post rest, k => ',' :: (pre ++ d.render (post ++ rest.more k))
/-- The text of the members of a grouping, separated by commas, followed by `k`. -/
def Members.render : Members → Str → Str
  | .nil, k => k
  | .cons preKey key preColon preVal val post rest, k =>
    preKey ++ '"' :: (key ++ '"' :: (preColon ++ ':' :: (preVal ++
      val.render (post ++ rest.more k))))
/-- The text of further members, each preceded by a comma, followed by `k`. -/
def Members.more : Members → Str → Str
  | .nil, k => k
  | .cons preKey key preColon preVal val post rest, k =>
    ',' :: (preKey ++ '"' :: (key ++ '"' :: (preColon ++ ':' :: (preVal ++
      val.render (post ++ rest.more k)))))
end

mutual
/-- The tree a `Doc` stands for; the layout plays no part. -/
def Doc.value : Doc → JsonValue
  | .tok t => .mk t [] false
  | .str t => .mk t [] false
  | .arr items _ => .mk [] items.values true
  | .obj members _ => .mk [] members.values false
/-- The trees of the elements of a sequence. -/
def Items.values : Items → List JsonValue
  | .nil => []
  | .cons _ d _ rest => d.value :: rest.values
/-- The trees of the members of a grouping: key, value, key, value. -/
def Members.values : Members → List JsonValue
  | .nil => []
  | .cons _ key _ _ val _ rest => .mk key [] false :: val.value :: rest.values
end

/-- A whitespace string. -/
def isWs (w : Str) : Bool := w.all isspace

/-- A bare token: not empty, not starting with `[`, `\x7b` or `"`, and without whitespace,
`,`, `]` and `\x7d`. -/
def tokOk (t : Str) : Bool :=
  (match t with
   | [] => false
   | c :: _ => c != '[' && c != '{' && c != '"') &&
  t.all (fun x => !isspace x && x != ',' && x != ']' && x != '}')

/-- The content of a quoted string, read after the character `prev`: every `"` directly
follows a backslash, and the last character is not a backslash. -/
def strOkFrom : Char → Str → Bool
  | prev, [] => prev != '\\'
  | prev, c :: r => (c != '"' || prev == '\\') && strOkFrom c r

/-- The content of a quoted string. -/
def strOk (t : Str) : Bool := strOkFrom (Char.ofNat 0) t

mutual
/-- Well-formed layout: the tokens are tokens, the strings are strings, and the
whitespace is whitespace. -/
def Doc.wf : Doc → Bool
  | .tok t => tokOk t
  | .str t => strOk t
  | .arr items close => items.wf && isWs close
  | .obj members close => members.wf && isWs close
/-- Well-formed elements. -/
def Items.wf : Items → Bool
  | .nil => true
  | .cons pre d post rest => isWs pre && d.wf && isWs post && rest.wf
/-- Well-formed members. -/
def Members.wf : Members → Bool
  | .nil => true
  | .cons preKey key preColon preVal val post rest =>
    isWs preKey && strOk key && isWs preColon && isWs preVal && val.wf && isWs post && rest.wf
end

mutual
/-- The same tokens with all whitespace removed. -/
def Doc.strip : Doc → Doc
  | .tok t => .tok t
  | .str t => .str t
  | .arr items _ => .arr items.strip []
  | .obj members _ => .obj members.strip []
/-- The same elements with all whitespace removed. -/
def Items.strip : Items → Items
  | .nil => .nil
  | .cons _ d _ rest => .cons [] d.strip [] rest.strip
/-- The same members with all whitespace removed. -/
def Members.strip : Members → Members
  | .nil => .nil
  | .cons _ key _ _ val _ rest => .cons [] key [] [] val.strip [] rest.strip
end

mutual
/-- A bound on the recursion depth and loop iterations that suffices to parse the text
of a `Doc`. -/
def Doc.fuel : Doc → Nat
  | .tok _ => 1
  | .str _ => 1
  | .arr items _ => items.fuel + 1
  | .obj members _ => members.fuel + 1
/-- A bound that suffices for the elements of a sequence. -/
def Items.fuel : Items → Nat
  | .nil => 1
  | .cons _ d _ rest => max d.fuel rest.fuel + 1
/-- A bound that suffices for the members of a grouping. -/
def Members.fuel : Members → Nat
  | .nil => 1
  | .cons _ _ _ _ val _ rest => max val.fuel rest.fuel + 1
end

/-- The text of a `Doc`. -/
def Doc.text (d : Doc) : Str := d.render []


/-- A text at which a bare token ends: it starts with whitespace, `,`, `]` or `\x7d`. -/
def stopsToken (k : Str) : Bool :=
  match k with
  | [] => false
  | c :: _ => isspace c || c == ',' || c == ']' || c == '}'


/-- A battery of one case with whitespace in every gap:
` [ \x7b"input" : [ [2 , 7] , 9 ] , "expected":[0,1] \x7d ]` and a final newline. -/
def sampleDoc : Doc :=
  .arr (.cons [' ']
    (.obj
      (.cons [] "input".toList [' '] [' ']
        (.arr (.cons [' '] (.arr (.cons [] (.tok ['2']) [' '] (.cons [' '] (.tok ['7']) []
          .nil)) []) [' '] (.cons [' '] (.tok ['9']) [' '] .nil)) [])
        [' ']
        (.cons [' '] "expected".toList [] []
          (.arr (.cons [] (.tok ['0']) [] (.cons [] (.tok ['1']) [] .nil)) []) [' '] .nil))
      [])
    [' '] .nil) []


/-! ## Batteries of the documented shape, as texts with layout -/

theorem foldl_verdict_passed (pre : List TestResult) (acc : Verdict)
    (hpre : ∀ p ∈ pre, p.status = passed) :
    (pre.foldl aggregateStep acc).final_verdict = acc.final_verdict := by
  induction pre generalizing acc with
  | nil => rfl
  | cons p ps ih =>
    have hp : p.status = passed := hpre p (List.mem_cons_self _ _)
    rw [List.foldl_cons, ih _ (fun q hq => hpre q (List.mem_cons_of_mem _ hq))]
    simp [aggregateStep, hp]

theorem foldl_verdict_fixed (post : List TestResult) (acc : Verdict)
    (hacc : acc.final_verdict ≠ ACCEPTED) :
    (post.foldl aggregateStep acc).final_verdict = acc.final_verdict := by
  induction post generalizing acc with
  | nil => rfl
  | cons p ps ih =>
    have hstep : (aggregateStep acc p).final_verdict = acc.final_verdict := by
      simp [aggregateStep, hacc]
    rw [List.foldl_cons, ih _ (by rw [hstep]; exact hacc), hstep]

theorem foldl_runtime_mono (results : List TestResult) (acc : Verdict) :
    acc.max_runtime ≤ (results.foldl aggregateStep acc).max_runtime := by
  induction results generalizing acc with
  | nil => exact le_refl _
  | cons p ps ih =>
    rw [List.foldl_cons]
    refine le_trans ?_ (ih _)
    simp only [aggregateStep]
    split <;> omega

theorem foldl_memory_mono (results : List TestResult) (acc : Verdict) :
    acc.max_memory ≤ (results.foldl aggregateStep acc).max_memory := by
  induction results generalizing acc with
  | nil => exact le_refl _
  | cons p ps ih =>
    rw [List.foldl_cons]
    refine le_trans ?_ (ih _)
    simp only [aggregateStep]
    split <;> omega

theorem foldl_runtime_bound (results : List TestResult) (acc : Verdict) :
    ∀ r ∈ results, r.time_ms ≤ (results.foldl aggregateStep acc).max_runtime := by
  induction results generalizing acc with
  | nil => intro r hr; cases hr
  | cons p ps ih =>
    intro r hr
    rw [List.foldl_cons]
    rcases List.mem_cons.mp hr with h | h
    · subst h
      refine le_trans ?_ (foldl_runtime_mono ps _)
      simp only [aggregateStep]
      split <;> omega
    · exact ih _ r h

theorem foldl_memory_bound (results : List TestResult) (acc : Verdict) :
    ∀ r ∈ results, r.memory_kb ≤ (results.foldl aggregateStep acc).max_memory := by
  induction results generalizing acc with
  | nil => intro r hr; cases hr
  | cons p ps ih =>
    intro r hr
    rw [List.foldl_cons]
    rcases List.mem_cons.mp hr with h | h
    · subst h
      refine le_trans ?_ (foldl_memory_mono ps _)
      simp only [aggregateStep]
      split <;> omega
    · exact ih _ r h

theorem foldl_runtime_attained (results : List TestResult) (acc : Verdict) :
    (results.foldl aggregateStep acc).max_runtime = acc.max_runtime ∨
      ∃ r ∈ results, r.time_ms = (results.foldl aggregateStep acc).max_runtime := by
  induction results generalizing acc with
  | nil => exact Or.inl rfl
  | cons p ps ih =>
    rw [List.foldl_cons]
    rcases ih (aggregateStep acc p) with h | ⟨r, hr, h⟩
    · rw [h]
      by_cases hgt : p.time_ms > acc.max_runtime
      · exact Or.inr ⟨p, List.mem_cons_self _ _, by simp [aggregateStep, hgt]⟩
      · exact Or.inl (by simp [aggregateStep, hgt])
    · exact Or.inr ⟨r, List.mem_cons_of_mem _ hr, h⟩

theorem foldl_memory_attained (results : List TestResult) (acc : Verdict) :
    (results.foldl aggregateStep acc).max_memory = acc.max_memory ∨
      ∃ r ∈ results, r.memory_kb = (results.foldl aggregateStep acc).max_memory := by
  induction results generalizing acc with
  | nil => exact Or.inl rfl
  | cons p ps ih =>
    rw [List.foldl_cons]
    rcases ih (aggregateStep acc p) with h | ⟨r, hr, h⟩
    · rw [h]
      by_cases hgt : p.memory_kb > acc.max_memory
      · exact Or.inr ⟨p, List.mem_cons_self _ _, by simp [aggregateStep, hgt]⟩
      · exact Or.inl (by simp [aggregateStep, hgt])
    · exact Or.inr ⟨r, List.mem_cons_of_mem _ hr, h⟩

/-! ## C1, C2 -/

/-- C1: when every case before `r` is `passed`, the verdict of the passed prefix alone is
`ACCEPTED`, and the verdict of the full list `pre ++ r :: post` is the image of the status
of `r`, the first non-passed case (`timeout` gives `TLE`, `runtime_error` gives
`RUNTIME_ERROR`, `failed` gives `WRONG_ANSWER`), whatever the later cases `post` are. -/
theorem verdict_first_non_passed (pre post : List TestResult) (r : TestResult)
    (hpre : ∀ p ∈ pre, p.status = passed) :
    (aggregate pre).final_verdict = ACCEPTED ∧
    (r.status = timeout → (aggregate (pre ++ r :: post)).final_verdict = TLE) ∧
    (r.status = runtime_error →
      (aggregate (pre ++ r :: post)).final_verdict = RUNTIME_ERROR) ∧
    (r.status = failed → (aggregate (pre ++ r :: post)).final_verdict = WRONG_ANSWER) := by
  have hstart : (aggregate pre).final_verdict = ACCEPTED := by
    unfold aggregate
    rw [foldl_verdict_passed pre _ hpre]
  have hsplit : ∀ v : Str, v ≠ ACCEPTED →
      (aggregateStep (aggregate pre) r).final_verdict = v →
      (aggregate (pre ++ r :: post)).final_verdict = v := by
    intro v hv hstep
    have h : aggregate (pre ++ r :: post)
        = post.foldl aggregateStep (aggregateStep (aggregate pre) r) := by
      simp [aggregate, List.foldl_append]
    rw [h, foldl_verdict_fixed post _ (by rw [hstep]; exact hv), hstep]
  refine ⟨hstart, ?_, ?_, ?_⟩
  · intro hr
    refine hsplit TLE (by decide) ?_
    have hne : timeout ≠ passed := by decide
    simp [aggregateStep, hr, hstart, hne]
  · intro hr
    refine hsplit RUNTIME_ERROR (by decide) ?_
    have hne : runtime_error ≠ passed := by decide
    have hne2 : runtime_error ≠ timeout := by decide
    simp [aggregateStep, hr, hstart, hne, hne2]
  · intro hr
    refine hsplit WRONG_ANSWER (by decide) ?_
    have hne : failed ≠ passed := by decide
    have hne2 : failed ≠ timeout := by decide
    have hne3 : failed ≠ runtime_error := by decide
    simp [aggregateStep, hr, hstart, hne, hne2, hne3]

/-- C1 at a concrete battery: a passed case, then a timeout, then a failed case gives
`TLE`; the later failed case does not change it. -/
theorem verdict_first_non_passed_witness :
    (aggregate ([⟨passed, 3, 100, [], [], []⟩] ++
      (⟨timeout, 5000, 120, [], [], []⟩ : TestResult) ::
        [⟨failed, 1, 130, [], [], []⟩])).final_verdict = TLE :=
  (verdict_first_non_passed [⟨passed, 3, 100, [], [], []⟩] [⟨failed, 1, 130, [], [], []⟩]
    ⟨timeout, 5000, 120, [], [], []⟩ (by simp)).2.1 rfl

/-- C2: `max_runtime` and `max_memory` are the maxima of `time_ms` and `memory_kb` over all
cases, whatever their statuses: every case is below the reported value, and for a
non-empty list of non-negative measurements the reported value is attained by some case
(for the empty list both are `0`). -/
theorem rollup_is_maximum (results : List TestResult)
    (hnn : ∀ r ∈ results, 0 ≤ r.time_ms ∧ 0 ≤ r.memory_kb) :
    (∀ r ∈ results, r.time_ms ≤ (aggregate results).max_runtime ∧
      r.memory_kb ≤ (aggregate results).max_memory) ∧
    (results ≠ [] → (∃ r ∈ results, r.time_ms = (aggregate results).max_runtime) ∧
      (∃ r ∈ results, r.memory_kb = (aggregate results).max_memory)) ∧
    (results = [] → (aggregate results).max_runtime = 0 ∧
      (aggregate results).max_memory = 0) := by
  refine ⟨fun r hr => ⟨foldl_runtime_bound results _ r hr, foldl_memory_bound results _ r hr⟩,
    ?_, ?_⟩
  · intro hne
    obtain ⟨x, hx⟩ := List.exists_mem_of_ne_nil results hne
    constructor
    · rcases foldl_runtime_attained results
        { final_verdict := ACCEPTED, max_runtime := 0, max_memory := 0 } with h | h
      · refine ⟨x, hx, ?_⟩
        have hle := foldl_runtime_bound results
          { final_verdict := ACCEPTED, max_runtime := 0, max_memory := 0 } x hx
        have hge := (hnn x hx).1
        simp only [aggregate]
        rw [h] at hle ⊢
        exact le_antisymm hle hge
      · exact h
    · rcases foldl_memory_attained results
        { final_verdict := ACCEPTED, max_runtime := 0, max_memory := 0 } with h | h
      · refine ⟨x, hx, ?_⟩
        have hle := foldl_memory_bound results
          { final_verdict := ACCEPTED, max_runtime := 0, max_memory := 0 } x hx
        have hge := (hnn x hx).2
        simp only [aggregate]
        rw [h] at hle ⊢
        exact le_antisymm hle hge
      · exact h
  · intro h
    subst h
    exact ⟨rfl, rfl⟩

/-- C2 at a concrete battery with a timed-out and a failed case: some case attains the
reported `max_runtime` and some case attains the reported `max_memory`. -/
theorem rollup_is_maximum_witness :
    (∃ r ∈ sampleResults, r.time_ms = (aggregate sampleResults).max_runtime) ∧
    (∃ r ∈ sampleResults, r.memory_kb = (aggregate sampleResults).max_memory) :=
  (rollup_is_maximum sampleResults (by simp [sampleResults])).2.1 (by simp [sampleResults])

/-! ## Stream lemmas -/

theorem ws_weight_le (s : IStream) : (s.ws).weight ≤ s.weight := by
  unfold IStream.ws IStream.weight
  rcases s with ⟨rest, e, f⟩
  have hlen : (rest.dropWhile isspace).length ≤ rest.length :=
    (List.dropWhile_sublist isspace).length_le
  cases e <;> cases f <;> simp only [Bool.or_self, Bool.or_false, Bool.or_true, if_true]
  · simp only [Bool.false_eq_true, if_false]
    split <;> omega
  all_goals simp

theorem ws_failbit_of_failbit (s : IStream) (h : s.failbit = true) : (s.ws).failbit = true := by
  unfold IStream.ws
  simp [h]

theorem get_weight_le (s : IStream) : (s.get.2).weight ≤ s.weight := by
  unfold IStream.get IStream.weight
  rcases s with ⟨rest, e, f⟩
  cases e <;> cases f <;> simp
  cases rest <;> simp

theorem get_some_weight (s s1 : IStream) (c : Char) (h : s.get = (some c, s1)) :
    s1.weight + 2 ≤ s.weight ∧ s1.failbit = false ∧ s1.eofbit = false := by
  unfold IStream.get at h
  rcases s with ⟨rest, e, f⟩
  cases e <;> cases f <;> simp at h
  cases rest with
  | nil => simp at h
  | cons c1 r =>
    simp at h
    obtain ⟨_, h2⟩ := h
    subst h2
    simp [IStream.weight]
    omega

theorem get_none_failbit (s s1 : IStream) (h : s.get = (none, s1)) : s1.failbit = true := by
  unfold IStream.get at h
  rcases s with ⟨rest, e, f⟩
  cases e <;> cases f <;> simp at h
  · cases rest with
    | nil => simp at h; rw [← h]
    | cons c1 r => simp at h
  all_goals (rw [← h])

theorem peek_weight_le (s : IStream) : (s.peek.2).weight ≤ s.weight := by
  unfold IStream.peek IStream.weight
  rcases s with ⟨rest, e, f⟩
  cases e <;> cases f <;> simp
  cases rest <;> simp

theorem skipIf_weight_le (ch : Char) (s : IStream) : (skipIf ch s).weight ≤ s.weight := by
  unfold skipIf
  have h1 := ws_weight_le s
  have h2 := peek_weight_le s.ws
  have h3 := get_weight_le (s.ws).peek.2
  split
  · exact h1
  · split <;> omega

theorem skipIf_failbit (ch : Char) (s : IStream) (h : s.failbit = true) :
    (skipIf ch s).failbit = true := by
  unfold skipIf
  simp [ws_failbit_of_failbit s h]

theorem weight_eq_zero_of_failbit (s : IStream) (h : s.failbit = true) : s.weight = 0 := by
  simp [IStream.weight, h]

theorem weight_pos_of_not_failbit (s : IStream) (h : s.failbit = false) : 0 < s.weight := by
  simp only [IStream.weight, h]
  simp only [Bool.false_eq_true, if_false]
  split <;> omega

theorem stringLoop_weight (s : Str) (prev : Char) (rest : List Char) :
    ((stringLoop s prev rest).2).weight ≤ 2 * rest.length + 2 := by
  induction rest generalizing s prev with
  | nil => simp [stringLoop, IStream.weight]
  | cons c r ih =>
    unfold stringLoop
    split
    · simp [IStream.weight]
    · have := ih (s ++ [c]) c
      simp only [List.length_cons]
      omega

theorem tokenLoop_weight (s : Str) (rest : List Char) :
    ((tokenLoop s rest).2).weight ≤ 2 * rest.length + 2 := by
  induction rest generalizing s with
  | nil => simp [tokenLoop, IStream.weight]
  | cons c r ih =>
    unfold tokenLoop
    split
    · simp [IStream.weight]
    · have := ih (s ++ [c])
      simp only [List.length_cons]
      omega

/-! ## Termination of the parser -/

theorem arrayLoop_total (p : IStream → Option (JsonValue × IStream)) (n : Nat)
    (hp : ∀ s : IStream, s.weight < n → ∃ v s1, p s = some (v, s1) ∧
      s1.weight ≤ s.weight ∧ (s1.failbit = true ∨ s1.weight < s.weight)) :
    ∀ (k : Nat) (s : IStream) (acc : List JsonValue), s.weight < k → s.weight < n →
      ∃ arr s1, arrayLoop p k s acc = some (arr, s1) ∧ s1.weight ≤ s.weight := by
  intro k
  induction k with
  | zero => intro s acc hk; omega
  | succ k ih =>
    intro s acc hk hn
    have hws := ws_weight_le s
    have hpk := peek_weight_le s.ws
    unfold arrayLoop
    by_cases hf : (s.ws).failbit = true
    · exact ⟨acc, s.ws, by simp [hf], hws⟩
    · by_cases hc : (s.ws).peek.1 = some ']'
      · exact ⟨acc, (s.ws).peek.2, by simp [hf, hc], by omega⟩
      · obtain ⟨v, s1, hv, hle, hdec⟩ := hp (s.ws).peek.2 (by omega)
        have hsk := skipIf_weight_le ',' s1
        have hspos : 0 < s.weight := by
          by_contra h0
          have hsf : s.failbit = true := by
            by_contra hsf
            have := weight_pos_of_not_failbit s (by simpa using hsf)
            omega
          exact hf (ws_failbit_of_failbit s hsf)
        have hlt : (skipIf ',' s1).weight < k := by
          rcases hdec with h | h
          · rw [weight_eq_zero_of_failbit _ (skipIf_failbit ',' s1 h)]
            omega
          · omega
        obtain ⟨arr, s2, harr, hle2⟩ := ih (skipIf ',' s1) (acc ++ [v]) hlt (by omega)
        exact ⟨arr, s2, by simp [hf, hc, hv, harr], by omega⟩

theorem objectLoop_total (p : IStream → Option (JsonValue × IStream)) (n : Nat)
    (hp : ∀ s : IStream, s.weight < n → ∃ v s1, p s = some (v, s1) ∧
      s1.weight ≤ s.weight ∧ (s1.failbit = true ∨ s1.weight < s.weight)) :
    ∀ (k : Nat) (s : IStream) (acc : List JsonValue), s.weight < k → s.weight < n →
      ∃ arr s1, objectLoop p k s acc = some (arr, s1) ∧ s1.weight ≤ s.weight := by
  intro k
  induction k with
  | zero => intro s acc hk; omega
  | succ k ih =>
    intro s acc hk hn
    have hws := ws_weight_le s
    have hpk := peek_weight_le s.ws
    unfold objectLoop
    by_cases hf : (s.ws).failbit = true
    · exact ⟨acc, s.ws, by simp [hf], hws⟩
    · by_cases hc : (s.ws).peek.1 = some '}'
      · exact ⟨acc, (s.ws).peek.2, by simp [hf, hc], by omega⟩
      · obtain ⟨key, s1, hkey, hle, hdec⟩ := hp (s.ws).peek.2 (by omega)
        have hsk := skipIf_weight_le ':' s1
        obtain ⟨val, s2, hval, hle2, _⟩ := hp (skipIf ':' s1) (by omega)
        have hsk2 := skipIf_weight_le ',' s2
        have hspos : 0 < s.weight := by
          by_contra h0
          have hsf : s.failbit = true := by
            by_contra hsf
            have := weight_pos_of_not_failbit s (by simpa using hsf)
            omega
          exact hf (ws_failbit_of_failbit s hsf)
        have hlt : (skipIf ',' s2).weight < k := by
          rcases hdec with h | h
          · have h1 := weight_eq_zero_of_failbit _ (skipIf_failbit ':' s1 h)
            omega
          · omega
        obtain ⟨arr, s3, harr, hle3⟩ := ih (skipIf ',' s2) (acc ++ [key, val]) hlt (by omega)
        exact ⟨arr, s3, by simp [hf, hc, hkey, hval, harr], by omega⟩

/-- The bounded parser returns whenever the bound exceeds the weight of the stream, and
the stream it leaves is failed or strictly lighter. -/
theorem parseJsonFuel_total : ∀ (n : Nat) (s : IStream), s.weight < n →
    ∃ v s1, parseJsonFuel n s = some (v, s1) ∧ s1.weight ≤ s.weight ∧
      (s1.failbit = true ∨ s1.weight < s.weight) := by
  intro n
  induction n with
  | zero => intro s h; omega
  | succ n ih =>
    intro s hn
    have hws := ws_weight_le s
    unfold parseJsonFuel
    by_cases hf : (s.ws).failbit = true
    · exact ⟨JsonValue.empty, s.ws, by simp [hf], hws, Or.inl hf⟩
    · simp only [hf, Bool.false_eq_true, if_false]
      rcases hg : (s.ws).get with ⟨oc, s1⟩
      cases oc with
      | none =>
        have := get_none_failbit _ _ hg
        have hle := get_weight_le s.ws
        rw [hg] at hle
        exact ⟨JsonValue.empty, s1, rfl, by simpa using le_trans hle hws, Or.inl this⟩
      | some c =>
        obtain ⟨hw, hf1, he1⟩ := get_some_weight _ _ _ hg
        simp only
        by_cases h1 : c = '['
        · obtain ⟨arr, s2, harr, hle⟩ := arrayLoop_total (parseJsonFuel n) n ih n s1 []
            (by omega) (by omega)
          have hg2 := get_weight_le s2
          exact ⟨.mk [] arr true, s2.get.2, by simp [h1, harr], by omega, Or.inr (by omega)⟩
        · by_cases h2 : c = '{'
          · obtain ⟨arr, s2, harr, hle⟩ := objectLoop_total (parseJsonFuel n) n ih n s1 []
              (by omega) (by omega)
            have hg2 := get_weight_le s2
            exact ⟨.mk [] arr false, s2.get.2, by simp [h1, h2, harr], by omega,
              Or.inr (by omega)⟩
          · have hs1 : s1.weight = 2 * s1.rest.length + 2 := by
              simp [IStream.weight, hf1, he1]
            by_cases h3 : c = '"'
            · have hb := stringLoop_weight [] (Char.ofNat 0) s1.rest
              exact ⟨.mk (stringLoop [] (Char.ofNat 0) s1.rest).1 [] false,
                (stringLoop [] (Char.ofNat 0) s1.rest).2, by simp [h1, h2, h3], by omega,
                Or.inr (by omega)⟩
            · have hb := tokenLoop_weight [c] s1.rest
              exact ⟨.mk (tokenLoop [c] s1.rest).1 [] false, (tokenLoop [c] s1.rest).2,
                by simp [h1, h2, h3], by omega, Or.inr (by omega)⟩

/-- The function `parseJson` is the bounded parser at a sufficient bound: its result is
a result of the bounded parser, never the fallback. -/
theorem parseJson_eq (s : IStream) :
    parseJsonFuel (s.weight + 1) s = some (parseJson s) := by
  obtain ⟨v, s1, h, _⟩ := parseJsonFuel_total (s.weight + 1) s (by omega)
  simp [parseJson, h]

/-! ## The even-children invariant -/

theorem mem_nodesList (x : JsonValue) (a : List JsonValue) :
    x ∈ nodesList a ↔ ∃ c ∈ a, x ∈ c.nodes := by
  induction a with
  | nil => simp [nodesList]
  | cons v vs ih => simp [nodesList, ih]

theorem mem_nodes_mk (x : JsonValue) (r : Str) (a : List JsonValue) (b : Bool) :
    x ∈ (JsonValue.mk r a b).nodes ↔ x = .mk r a b ∨ ∃ c ∈ a, x ∈ c.nodes := by
  simp [JsonValue.nodes, mem_nodesList]

theorem evenNodes_leaf (r : Str) (b : Bool) :
    ∀ x ∈ (JsonValue.mk r [] b).nodes, x.is_array = false → x.array.length % 2 = 0 := by
  intro x hx _
  rw [mem_nodes_mk] at hx
  rcases hx with h | ⟨c, hc, _⟩
  · subst h; rfl
  · cases hc

theorem evenNodes_mk (r : Str) (a : List JsonValue) (b : Bool)
    (hpar : b = false → a.length % 2 = 0)
    (hch : ∀ c ∈ a, ∀ x ∈ c.nodes, x.is_array = false → x.array.length % 2 = 0) :
    ∀ x ∈ (JsonValue.mk r a b).nodes, x.is_array = false → x.array.length % 2 = 0 := by
  intro x hx hxa
  rw [mem_nodes_mk] at hx
  rcases hx with h | ⟨c, hc, hxc⟩
  · subst h
    exact hpar hxa
  · exact hch c hc x hxc hxa

theorem arrayLoop_even (p : IStream → Option (JsonValue × IStream))
    (hp : ∀ s v s1, p s = some (v, s1) →
      ∀ x ∈ v.nodes, x.is_array = false → x.array.length % 2 = 0) :
    ∀ (k : Nat) (s : IStream) (acc arr : List JsonValue) (s1 : IStream),
      arrayLoop p k s acc = some (arr, s1) →
      (∀ c ∈ acc, ∀ x ∈ c.nodes, x.is_array = false → x.array.length % 2 = 0) →
      ∀ c ∈ arr, ∀ x ∈ c.nodes, x.is_array = false → x.array.length % 2 = 0 := by
  intro k
  induction k with
  | zero => intro s acc arr s1 h; simp [arrayLoop] at h
  | succ k ih =>
    intro s acc arr s1 h hacc
    unfold arrayLoop at h
    split at h
    · simp at h; rw [← h.1]; exact hacc
    · split at h
      · simp at h; rw [← h.1]; exact hacc
      · split at h
        · cases h
        · rename_i v s2 hv
          refine ih _ _ _ _ h ?_
          intro c hc
          rcases List.mem_append.mp hc with hc | hc
          · exact hacc c hc
          · simp at hc
            subst hc
            exact hp _ _ _ hv

theorem objectLoop_even (p : IStream → Option (JsonValue × IStream))
    (hp : ∀ s v s1, p s = some (v, s1) →
      ∀ x ∈ v.nodes, x.is_array = false → x.array.length % 2 = 0) :
    ∀ (k : Nat) (s : IStream) (acc arr : List JsonValue) (s1 : IStream),
      objectLoop p k s acc = some (arr, s1) →
      acc.length % 2 = 0 →
      (∀ c ∈ acc, ∀ x ∈ c.nodes, x.is_array = false → x.array.length % 2 = 0) →
      arr.length % 2 = 0 ∧
        ∀ c ∈ arr, ∀ x ∈ c.nodes, x.is_array = false → x.array.length % 2 = 0 := by
  intro k
  induction k with
  | zero => intro s acc arr s1 h; simp [objectLoop] at h
  | succ k ih =>
    intro s acc arr s1 h hlen hacc
    unfold objectLoop at h
    split at h
    · simp at h; rw [← h.1]; exact ⟨hlen, hacc⟩
    · split at h
      · simp at h; rw [← h.1]; exact ⟨hlen, hacc⟩
      · split at h
        · cases h
        · rename_i key s2 hkey
          split at h
          · cases h
          · rename_i val s3 hval
            refine ih _ _ _ _ h ?_ ?_
            · simp only [List.length_append, List.length_cons, List.length_nil]
              omega
            · intro c hc
              rcases List.mem_append.mp hc with hc | hc
              · exact hacc c hc
              · simp at hc
                rcases hc with hc | hc
                · subst hc; exact hp _ _ _ hkey
                · subst hc; exact hp _ _ _ hval

theorem parseJsonFuel_even : ∀ (n : Nat) (s : IStream) (v : JsonValue) (s1 : IStream),
    parseJsonFuel n s = some (v, s1) →
    ∀ x ∈ v.nodes, x.is_array = false → x.array.length % 2 = 0 := by
  intro n
  induction n with
  | zero => intro s v s1 h; simp [parseJsonFuel] at h
  | succ n ih =>
    intro s v s1 h
    unfold parseJsonFuel at h
    split at h
    · simp at h; rw [← h.1]; exact evenNodes_leaf _ _
    · split at h
      · simp at h; rw [← h.1]; exact evenNodes_leaf _ _
      · split at h
        · split at h
          · cases h
          · rename_i arr s2 harr
            simp at h
            rw [← h.1]
            exact evenNodes_mk _ _ _ (by simp)
              (arrayLoop_even _ ih _ _ _ _ _ harr (by simp))
        · split at h
          · split at h
            · cases h
            · rename_i arr s2 harr
              simp at h
              rw [← h.1]
              have := objectLoop_even _ ih _ _ _ _ _ harr (by simp) (by simp)
              exact evenNodes_mk _ _ _ (fun _ => this.1) this.2
          · split at h
            · simp at h; rw [← h.1]; exact evenNodes_leaf _ _
            · simp at h; rw [← h.1]; exact evenNodes_leaf _ _

theorem self_mem_nodes (v : JsonValue) : v ∈ v.nodes := by
  cases v with
  | mk r a b => simp [JsonValue.nodes]

/-! ## C10 -/

/-- C10: for every state of the input stream (so for every input text, well-formed or
not), every node of the tree returned by `parseJson` that is not a positional sequence
(`is_array = false`) has an even number of children. -/
theorem parseJson_even_children (s : IStream) (x : JsonValue)
    (hx : x ∈ (parseJson s).1.nodes) (hobj : x.is_array = false) :
    x.array.length % 2 = 0 :=
  parseJsonFuel_even _ s _ _ (parseJson_eq s) x hx hobj

/-- C10 at a truncated input: the grouping opened by `\x7b"a":1,"b"` is cut after its
second key; the parser pairs that key with an empty value, so the node has 4 children. -/
theorem parseJson_even_children_witness :
    (parseJson (IStream.ofText "\x7b\"a\":1,\"b\"".toList)).1.is_array = false ∧
    (parseJson (IStream.ofText "\x7b\"a\":1,\"b\"".toList)).1.array.length = 4 ∧
    (parseJson (IStream.ofText "\x7b\"a\":1,\"b\"".toList)).1.array.length % 2 = 0 :=
  ⟨rfl, rfl, parseJson_even_children (IStream.ofText "\x7b\"a\":1,\"b\"".toList) _
    (self_mem_nodes _) rfl⟩

/-! ## The quoted-string branch -/

theorem isspace_quote : isspace '"' = false := by decide

theorem parseJsonFuel_quote (n : Nat) (r : List Char) :
    parseJsonFuel (n + 1) { rest := '"' :: r, eofbit := false, failbit := false } =
      some (.mk (stringLoop [] (Char.ofNat 0) r).1 [] false,
        (stringLoop [] (Char.ofNat 0) r).2) := by
  simp [parseJsonFuel, IStream.ws, IStream.get, List.dropWhile, isspace_quote]

theorem parseJson_quote (r : List Char) :
    parseJson { rest := '"' :: r, eofbit := false, failbit := false } =
      (.mk (stringLoop [] (Char.ofNat 0) r).1 [] false,
        (stringLoop [] (Char.ofNat 0) r).2) := by
  have h := parseJson_eq { rest := '"' :: r, eofbit := false, failbit := false }
  rw [parseJsonFuel_quote] at h
  exact (Option.some.inj h).symm

/-- The string loop on a text whose quotes all follow a backslash (the character before
the text being `prev`): the closing quote ends the loop when the last character before
it is not a backslash, and is taken as text otherwise. -/
theorem stringLoop_escaped (t : Str) : ∀ (s : Str) (prev : Char) (r : List Char),
    (∀ a b, t = a ++ '"' :: b → (a = [] ∧ prev = '\\') ∨ ∃ a1, a = a1 ++ ['\\']) →
    stringLoop s prev (t ++ '"' :: r) =
      if (prev :: t).getLast? = some '\\' then stringLoop (s ++ t ++ ['"']) '"' r
      else (s ++ t, { rest := r, eofbit := false, failbit := false }) := by
  induction t with
  | nil =>
    intro s prev r _
    by_cases hp : prev = '\\'
    · simp [stringLoop, hp]
    · simp [stringLoop, hp]
  | cons c t ih =>
    intro s prev r h
    have hstep : ¬ (c = '"' ∧ prev ≠ '\\') := by
      rintro ⟨hc, hp⟩
      rcases h [] t (by simp [hc]) with ⟨_, h1⟩ | ⟨a1, h1⟩
      · exact hp h1
      · simp at h1
    have hrec : ∀ a b, t = a ++ '"' :: b → (a = [] ∧ c = '\\') ∨ ∃ a1, a = a1 ++ ['\\'] := by
      intro a b hab
      rcases h (c :: a) b (by simp [hab]) with ⟨h1, _⟩ | ⟨a1, h1⟩
      · simp at h1
      · cases a1 with
        | nil =>
          simp at h1
          exact Or.inl ⟨h1.2, h1.1⟩
        | cons d a2 =>
          simp at h1
          exact Or.inr ⟨a2, h1.2⟩
    have hlast : (prev :: c :: t).getLast? = (c :: t).getLast? := by
      simp [List.getLast?_cons_cons]
    rw [List.cons_append, stringLoop, if_neg hstep, ih _ _ _ hrec, hlast]
    simp

/-! ## C6 -/

theorem escapeJSON_foldl (s : Str) (acc : Str) :
    s.foldl (fun res c =>
      if c = '"' then res ++ ['\\', '"']
      else if c = '\\' then res ++ ['\\', '\\']
      else res ++ [c]) acc = acc ++ (s.map escapeChar).flatten := by
  induction s generalizing acc with
  | nil => simp
  | cons c cs ih =>
    rw [List.foldl_cons, ih]
    by_cases h1 : c = '"'
    · simp [escapeChar, h1]
    · by_cases h2 : c = '\\'
      · simp [escapeChar, h2]
      · simp [escapeChar, h1, h2]

theorem escapeJSON_eq_join (s : Str) : escapeJSON s = (s.map escapeChar).flatten := by
  unfold escapeJSON
  rw [escapeJSON_foldl]
  rfl

theorem escapeJSON_nil : escapeJSON [] = [] := rfl

theorem escapeJSON_cons (c : Char) (s : Str) :
    escapeJSON (c :: s) = escapeChar c ++ escapeJSON s := by
  simp [escapeJSON_eq_join]

theorem escapeJSON_append (s t : Str) :
    escapeJSON (s ++ t) = escapeJSON s ++ escapeJSON t := by
  simp [escapeJSON_eq_join]

theorem escapeJSON_length (s : Str) :
    (escapeJSON s).length = s.length + s.count '"' + s.count '\\' := by
  induction s with
  | nil => rfl
  | cons c cs ih =>
    rw [escapeJSON_cons, List.length_append, ih]
    by_cases h1 : c = '"'
    · subst h1
      simp [escapeChar, List.count_cons]
      omega
    · by_cases h2 : c = '\\'
      · subst h2
        simp [escapeChar, List.count_cons]
        omega
      · have h1' : ¬ ('"' = c) := fun e => h1 e.symm
        have h2' : ¬ ('\\' = c) := fun e => h2 e.symm
        simp [escapeChar, h1, h2, List.count_cons, h1', h2']
        omega

theorem escapeJSON_id (s : Str) (h : '"' ∉ s ∧ '\\' ∉ s) : escapeJSON s = s := by
  induction s with
  | nil => rfl
  | cons c cs ih =>
    have hc1 : c ≠ '"' := fun e => h.1 (e ▸ List.mem_cons_self _ _)
    have hc2 : c ≠ '\\' := fun e => h.2 (e ▸ List.mem_cons_self _ _)
    rw [escapeJSON_cons, ih ⟨fun m => h.1 (List.mem_cons_of_mem _ m),
      fun m => h.2 (List.mem_cons_of_mem _ m)⟩]
    simp [escapeChar, hc1, hc2]

/-- C6: `escapeJSON` is the in-order concatenation of the per-character images
(backslash and quote for a quote, two backslashes for a backslash, the character
itself otherwise, control characters included); a string with neither character is
returned unchanged, and the output length is the input length plus the number of
quotes and backslashes. -/
theorem escapeJSON_only_quote_backslash (s : Str) :
    escapeJSON s = (s.map escapeChar).flatten ∧
    (∀ c : Char, c ≠ '"' → c ≠ '\\' → escapeChar c = [c]) ∧
    escapeChar '"' = ['\\', '"'] ∧ escapeChar '\\' = ['\\', '\\'] ∧
    (('"' ∉ s ∧ '\\' ∉ s) → escapeJSON s = s) ∧
    (escapeJSON s).length = s.length + s.count '"' + s.count '\\' := by
  refine ⟨escapeJSON_eq_join s, ?_, by decide, by decide, escapeJSON_id s,
    escapeJSON_length s⟩
  intro c h1 h2
  simp [escapeChar, h1, h2]

/-- C6 at a concrete string with a quote, a backslash and a newline: only the first
two are escaped. -/
theorem escapeJSON_only_quote_backslash_witness :
    escapeJSON ['a', '"', '\\', '\n'] = ['a', '\\', '"', '\\', '\\', '\n'] ∧
    escapeJSON ['x', '\n', 'y'] = ['x', '\n', 'y'] :=
  ⟨by decide, (escapeJSON_only_quote_backslash ['x', '\n', 'y']).2.2.2.2.1 (by decide)⟩

theorem escapeJSON_quotes_escaped (s : Str) :
    ∀ a b, escapeJSON s = a ++ '"' :: b → ∃ a1, a = a1 ++ ['\\'] := by
  induction s with
  | nil => intro a b h; simp [escapeJSON_nil] at h
  | cons c cs ih =>
    intro a b h
    rw [escapeJSON_cons] at h
    by_cases h1 : c = '"'
    · subst h1
      simp only [escapeChar, if_true, List.cons_append, List.nil_append] at h
      rcases a with _ | ⟨x, a⟩
      · simp at h
      · rcases a with _ | ⟨y, a⟩
        · simp at h
          exact ⟨[], by simp [← h.1]⟩
        · simp at h
          obtain ⟨a1, ha1⟩ := ih a b h.2.2
          exact ⟨x :: y :: a1, by simp [ha1]⟩
    · by_cases h2 : c = '\\'
      · subst h2
        simp only [escapeChar, h1, if_false, if_true, List.cons_append, List.nil_append] at h
        rcases a with _ | ⟨x, a⟩
        · simp at h
        · rcases a with _ | ⟨y, a⟩
          · simp at h
          · simp at h
            obtain ⟨a1, ha1⟩ := ih a b h.2.2
            exact ⟨x :: y :: a1, by simp [ha1]⟩
      · simp only [escapeChar, h1, h2, if_false, List.cons_append, List.nil_append] at h
        rcases a with _ | ⟨x, a⟩
        · simp at h
          exact absurd h.1 h1
        · simp at h
          obtain ⟨a1, ha1⟩ := ih a b h.2
          exact ⟨x :: a1, by simp [ha1]⟩

theorem escapeJSON_getLast (s : Str) :
    (escapeJSON s).getLast? = some '\\' ↔ s.getLast? = some '\\' := by
  rcases List.eq_nil_or_concat s with h | ⟨t, c, h⟩
  · subst h; simp [escapeJSON_nil]
  · subst h
    rw [List.concat_eq_append, escapeJSON_append, escapeJSON_cons, escapeJSON_nil, List.append_nil]
    by_cases h1 : c = '"'
    · subst h1
      simp [escapeChar, List.getLast?_append]
    · by_cases h2 : c = '\\'
      · simp [escapeChar, h2, List.getLast?_append]
      · simp [escapeChar, h1, h2, List.getLast?_append]

theorem getLast?_cons_nul (t : Str) :
    ((Char.ofNat 0) :: t).getLast? = some '\\' ↔ t.getLast? = some '\\' := by
  cases t with
  | nil => simp
  | cons c t => simp [List.getLast?_cons_cons]

/-! ## C9 -/

/-- C9 as stated fails: the text `a\\` (an `a` and two backslashes) contains no quote at
all, yet the quote that closes it follows a backslash and is taken as text: the scalar
runs to the end of input, its raw text is `a\\"` and the stream ends failed. -/
theorem quoted_scalar_counterexample :
    (∀ a b, ['a', '\\', '\\'] = a ++ '"' :: b → ∃ a1, a = a1 ++ ['\\']) ∧
    parseJson (IStream.ofText ('"' :: ['a', '\\', '\\'] ++ ['"'])) =
      (.mk ['a', '\\', '\\', '"'] [] false,
        { rest := [], eofbit := true, failbit := true }) := by
  refine ⟨?_, rfl⟩
  intro a b h
  have hm : '"' ∈ ['a', '\\', '\\'] := by rw [h]; simp
  simp at hm

/-- C9 (amended): for every text `t` in which every `"` directly follows a backslash and
which does not end in a backslash, and every remainder `r`, `parseJson` on `"` `t` `"` `r`
returns a scalar node without children whose raw text is exactly `t`, backslashes kept,
and leaves exactly `r` unread on a good stream. -/
theorem quoted_scalar_verbatim (t : Str) (r : List Char)
    (hq : ∀ a b, t = a ++ '"' :: b → ∃ a1, a = a1 ++ ['\\'])
    (hend : t.getLast? ≠ some '\\') :
    parseJson { rest := '"' :: (t ++ '"' :: r), eofbit := false, failbit := false } =
      (.mk t [] false, { rest := r, eofbit := false, failbit := false }) := by
  rw [parseJson_quote, stringLoop_escaped t [] (Char.ofNat 0) r (fun a b h => Or.inr (hq a b h))]
  have h0 : ¬ ((Char.ofNat 0) :: t).getLast? = some '\\' :=
    fun h => hend ((getLast?_cons_nul t).mp h)
  simp [h0]

/-- C9 (amended) at a text with an escaped quote in the middle, followed by more input. -/
theorem quoted_scalar_verbatim_witness :
    parseJson { rest := '"' :: (['a', '\\', '"', 'b'] ++ '"' :: [' ', 'x']),
                eofbit := false, failbit := false } =
      (.mk ['a', '\\', '"', 'b'] [] false,
        { rest := [' ', 'x'], eofbit := false, failbit := false }) :=
  quoted_scalar_verbatim ['a', '\\', '"', 'b'] [' ', 'x']
    (by
      intro a b h
      rcases a with _ | ⟨x, a⟩
      · simp at h
      · rcases a with _ | ⟨y, a⟩
        · simp at h
        · rcases a with _ | ⟨z, a⟩
          · simp at h
            exact ⟨[x], by simp [← h.2.1]⟩
          · rcases a with _ | ⟨w, a⟩
            · simp at h
            · simp at h)
    (by decide)

/-! ## C5 -/

theorem reparse_escaped (s : Str) :
    parseJson (IStream.ofText ('"' :: (escapeJSON s ++ ['"']))) =
      if s.getLast? = some '\\' then
        (.mk (escapeJSON s ++ ['"']) [] false, { rest := [], eofbit := true, failbit := true })
      else (.mk (escapeJSON s) [] false, { rest := [], eofbit := false, failbit := false }) := by
  unfold IStream.ofText
  rw [parseJson_quote, stringLoop_escaped (escapeJSON s) [] (Char.ofNat 0) []
    (fun a b h => Or.inr (escapeJSON_quotes_escaped s a b h))]
  by_cases hl : s.getLast? = some '\\'
  · have h0 : ((Char.ofNat 0) :: escapeJSON s).getLast? = some '\\' :=
      (getLast?_cons_nul _).mpr ((escapeJSON_getLast s).mpr hl)
    simp [h0, hl, stringLoop]
  · have h0 : ¬ ((Char.ofNat 0) :: escapeJSON s).getLast? = some '\\' :=
      fun h => hl ((escapeJSON_getLast s).mp ((getLast?_cons_nul _).mp h))
    simp [h0, hl]

/-- C5 as stated fails: for `s = a"b` the text `"a\"b"` is re-parsed into a scalar whose
raw text is the escaped form `a\"b`, not `s`; the parser does not undo the escaping. -/
theorem escape_roundtrip_counterexample :
    (parseJson (IStream.ofText ('"' :: (escapeJSON ['a', '"', 'b'] ++ ['"'])))).1.raw =
      ['a', '\\', '"', 'b'] ∧
    (parseJson (IStream.ofText ('"' :: (escapeJSON ['a', '"', 'b'] ++ ['"'])))).1.raw ≠
      ['a', '"', 'b'] := by
  have h : (parseJson (IStream.ofText
      ('"' :: (escapeJSON ['a', '"', 'b'] ++ ['"'])))).1.raw = ['a', '\\', '"', 'b'] := rfl
  refine ⟨h, ?_⟩
  rw [h]
  decide

/-- C5 (amended): re-parsing `"` `escapeJSON s` `"` gives, for every `s` that does not end
in a backslash, a scalar node whose raw text is `escapeJSON s`, the escaped text kept as
it is, with the whole text consumed; so the raw text is the original `s` when `s`
contains neither `"` nor a backslash, and for no other `s`. -/
theorem escape_reparse_verbatim (s : Str) :
    (s.getLast? ≠ some '\\' →
      parseJson (IStream.ofText ('"' :: (escapeJSON s ++ ['"']))) =
        (.mk (escapeJSON s) [] false, { rest := [], eofbit := false, failbit := false })) ∧
    (('"' ∉ s ∧ '\\' ∉ s) →
      parseJson (IStream.ofText ('"' :: (escapeJSON s ++ ['"']))) =
        (.mk s [] false, { rest := [], eofbit := false, failbit := false })) ∧
    ((parseJson (IStream.ofText ('"' :: (escapeJSON s ++ ['"'])))).1.raw = s →
      '"' ∉ s ∧ '\\' ∉ s) := by
  refine ⟨?_, ?_, ?_⟩
  · intro hl
    rw [reparse_escaped, if_neg hl]
  · intro hs
    have hl : s.getLast? ≠ some '\\' := fun h => hs.2 (List.mem_of_getLast?_eq_some h)
    rw [reparse_escaped, if_neg hl, escapeJSON_id s hs]
  · intro hraw
    rw [reparse_escaped] at hraw
    have hlen := escapeJSON_length s
    have hcount : s.count '"' = 0 ∧ s.count '\\' = 0 := by
      split at hraw
      · have h2 := congrArg List.length hraw
        simp [JsonValue.raw] at h2
        omega
      · have h2 := congrArg List.length hraw
        simp only [JsonValue.raw] at h2
        omega
    exact ⟨List.count_eq_zero.mp hcount.1, List.count_eq_zero.mp hcount.2⟩

/-- C5 (amended) at a string with a tab and no quote or backslash: it comes back
unchanged. -/
theorem escape_reparse_verbatim_witness :
    parseJson (IStream.ofText ('"' :: (escapeJSON ['a', '\t', 'b'] ++ ['"']))) =
      (.mk ['a', '\t', 'b'] [] false, { rest := [], eofbit := false, failbit := false }) :=
  (escape_reparse_verbatim ['a', '\t', 'b']).2.1 (by decide)

/-! ## C3 -/

/-- C3: for a test case whose values extract, the record pushed by the case loop is
classified by the outcome of the candidate call: on a normal return of `res` the status
is `passed` when `res` equals `expected` as a list and `failed` otherwise, and the output
is `toJson res`; on an exception with message `m` the status is `runtime_error` and the
error is `m`; on deadline expiry the status is `timeout`. The error is empty unless the
status is `runtime_error`. -/
theorem case_classification (env : List Int → Int → CaseRun) (tc : JsonValue)
    (nums : List Int) (target : Int) (expected : List Int)
    (hx : extractCase tc = .ok (nums, target, expected)) :
    ∃ r, runCase env tc = .ok r ∧
      (∀ res, (env nums target).outcome = .returned res →
        (res = expected → r.status = passed) ∧ (res ≠ expected → r.status = failed) ∧
        r.output = toJson res ∧ r.error = []) ∧
      (∀ m, (env nums target).outcome = .threw m → r.status = runtime_error ∧ r.error = m) ∧
      ((env nums target).outcome = .deadline → r.status = timeout) ∧
      (r.status ≠ runtime_error → r.error = []) := by
  refine ⟨caseResult nums target expected (env nums target), by simp [runCase, hx], ?_, ?_, ?_, ?_⟩
  · intro res h
    refine ⟨fun e => ?_, fun e => ?_, ?_, ?_⟩
    · simp [caseResult, classify, h, e]
    · simp [caseResult, classify, h, e]
    · simp [caseResult, classify, h]
    · simp [caseResult, classify, h]
  · intro m h
    simp [caseResult, classify, h]
  · intro h
    simp [caseResult, classify, h]
  · intro h
    cases ho : (env nums target).outcome with
    | returned res => simp [caseResult, classify, ho]
    | threw m => simp [caseResult, classify, ho] at h
    | threwOther => simp [caseResult, classify, ho] at h
    | deadline => simp [caseResult, classify, ho]

/-- C3 at the case `\x7b"input":[[3,3],6],"expected":[0,1]\x7d` with a candidate that
returns `[1,0]`: the status is `failed` and the output is `[1,0]`. -/
theorem case_classification_witness :
    ∃ r, runCase (fun _ _ => ⟨.returned [1, 0], 2, 900⟩) sampleCase = .ok r ∧
      r.status = failed ∧ r.output = "[1,0]".toList ∧ r.error = [] := by
  obtain ⟨r, hr, hret, _⟩ := case_classification (fun _ _ => ⟨.returned [1, 0], 2, 900⟩)
    sampleCase [3, 3] 6 [0, 1] rfl
  obtain ⟨_, h2, h3, h4⟩ := hret [1, 0] rfl
  exact ⟨r, hr, h2 (by decide), h3, h4⟩

/-! ## C4 -/

theorem toJsonItems_eq_intercalate {α : Type} (f : α → Str) (xs : List α) :
    toJsonItems f xs = [','].intercalate (xs.map f) := by
  induction xs with
  | nil => rfl
  | cons x rest ih =>
    cases rest with
    | nil => simp [toJsonItems, List.intercalate]
    | cons y rest =>
      rw [toJsonItems, ih]
      simp [List.intercalate, List.intersperse]

theorem toDigitsCore_append : ∀ (fuel n : Nat) (ds : List Char), n < fuel →
    Nat.toDigitsCore 10 fuel n ds = Nat.toDigits 10 n ++ ds := by
  intro fuel
  induction fuel using Nat.strong_induction_on with
  | _ fuel ih =>
    intro n ds hn
    cases fuel with
    | zero => omega
    | succ f =>
      unfold Nat.toDigits
      by_cases h0 : n / 10 = 0
      · simp [Nat.toDigitsCore, h0]
      · have hlt : n / 10 < n := Nat.div_lt_self (by omega) (by omega)
        have h1 : Nat.toDigitsCore 10 (f + 1) n ds
            = Nat.toDigitsCore 10 f (n / 10) (Nat.digitChar (n % 10) :: ds) := by
          simp [Nat.toDigitsCore, h0]
        have h2 : Nat.toDigitsCore 10 (n + 1) n []
            = Nat.toDigitsCore 10 n (n / 10) [Nat.digitChar (n % 10)] := by
          simp [Nat.toDigitsCore, h0]
        rw [h1, h2, ih f (by omega) (n / 10) _ (by omega), ih n (by omega) (n / 10) _ hlt]
        simp

theorem toDigits_small (n : Nat) (h : n < 10) : Nat.toDigits 10 n = [Nat.digitChar n] := by
  have h0 : n / 10 = 0 := by omega
  have h1 : n % 10 = n := by omega
  simp [Nat.toDigits, Nat.toDigitsCore, h0, h1]

theorem toDigits_step (n : Nat) (h : 10 ≤ n) :
    Nat.toDigits 10 n = Nat.toDigits 10 (n / 10) ++ [Nat.digitChar (n % 10)] := by
  have h0 : n / 10 ≠ 0 := by omega
  have hlt : n / 10 < n := Nat.div_lt_self (by omega) (by omega)
  have h2 : Nat.toDigits 10 n
      = Nat.toDigitsCore 10 n (n / 10) [Nat.digitChar (n % 10)] := by
    simp [Nat.toDigits, Nat.toDigitsCore, h0]
  rw [h2, toDigitsCore_append n (n / 10) _ hlt]

theorem digitChar_isDigit (d : Nat) (h : d < 10) :
    (Nat.digitChar d).isDigit = true ∧ (Nat.digitChar d).toNat - 48 = d := by
  interval_cases d <;> decide

theorem toDigits_all_digit (n : Nat) : ∀ c ∈ Nat.toDigits 10 n, c.isDigit = true := by
  induction n using Nat.strong_induction_on with
  | _ n ih =>
    by_cases h : n < 10
    · rw [toDigits_small n h]
      intro c hc
      simp at hc
      rw [hc]
      exact (digitChar_isDigit n h).1
    · rw [toDigits_step n (by omega)]
      intro c hc
      rcases List.mem_append.mp hc with hc | hc
      · exact ih (n / 10) (Nat.div_lt_self (by omega) (by omega)) c hc
      · simp at hc
        rw [hc]
        exact (digitChar_isDigit (n % 10) (Nat.mod_lt _ (by omega))).1

theorem toDigits_ne_nil (n : Nat) : Nat.toDigits 10 n ≠ [] := by
  by_cases h : n < 10
  · rw [toDigits_small n h]; simp
  · rw [toDigits_step n (by omega)]; simp

theorem digitsValue_append_singleton (l : List Char) (d : Char) :
    digitsValue (l ++ [d]) = 10 * digitsValue l + (d.toNat - 48) := by
  simp [digitsValue, List.foldl_append]

theorem digitsValue_toDigits (n : Nat) : digitsValue (Nat.toDigits 10 n) = n := by
  induction n using Nat.strong_induction_on with
  | _ n ih =>
    by_cases h : n < 10
    · rw [toDigits_small n h]
      simp [digitsValue, (digitChar_isDigit n h).2]
    · rw [toDigits_step n (by omega), digitsValue_append_singleton,
        ih (n / 10) (Nat.div_lt_self (by omega) (by omega)),
        (digitChar_isDigit (n % 10) (Nat.mod_lt _ (by omega))).2]
      omega

theorem isDigit_not_space (c : Char) (h : c.isDigit = true) : isspace c = false := by
  cases hs : isspace c with
  | false => rfl
  | true =>
    simp only [isspace, Bool.or_eq_true, decide_eq_true_eq] at hs
    rcases hs with ((((rfl | rfl) | rfl) | rfl) | rfl) | rfl <;> revert h <;> decide

theorem isDigit_plain (c : Char) (h : c.isDigit = true) :
    c ≠ '"' ∧ c ≠ '\\' ∧ c ≠ ',' ∧ c ≠ ']' ∧ c ≠ '}' ∧ c ≠ '[' ∧
      c ≠ '{' ∧ c ≠ '-' ∧ c ≠ '+' := by
  refine ⟨?_, ?_, ?_, ?_, ?_, ?_, ?_, ?_, ?_⟩
  all_goals (rintro rfl; revert h; decide)

theorem to_string_chars (v : Int) : ∀ c ∈ to_string v, c = '-' ∨ c.isDigit = true := by
  intro c hc
  unfold to_string at hc
  split at hc
  · rcases List.mem_cons.mp hc with h | h
    · exact Or.inl h
    · exact Or.inr (toDigits_all_digit _ c h)
  · exact Or.inr (toDigits_all_digit _ c hc)

theorem to_string_plain (v : Int) : ∀ c ∈ to_string v, c ≠ '"' ∧ c ≠ '\\' := by
  intro c hc
  rcases to_string_chars v c hc with h | h
  · subst h; exact ⟨by decide, by decide⟩
  · exact ⟨(isDigit_plain c h).1, (isDigit_plain c h).2.1⟩

theorem toJsonItems_plain (v : List Int) :
    ∀ c ∈ toJsonItems to_string v, c ≠ '"' ∧ c ≠ '\\' := by
  induction v with
  | nil => intro c hc; cases hc
  | cons x rest ih =>
    cases rest with
    | nil => simpa [toJsonItems] using to_string_plain x
    | cons y rest =>
      intro c hc
      rw [toJsonItems] at hc
      rcases List.mem_append.mp hc with h | h
      · exact to_string_plain x c h
      · rcases List.mem_cons.mp h with h | h
        · subst h; exact ⟨by decide, by decide⟩
        · exact ih c h

theorem toJson_plain (v : List Int) : '"' ∉ toJson v ∧ '\\' ∉ toJson v := by
  have h : ∀ c ∈ toJson v, c ≠ '"' ∧ c ≠ '\\' := by
    intro c hc
    unfold toJson at hc
    rcases List.mem_cons.mp hc with h | h
    · subst h; exact ⟨by decide, by decide⟩
    · rcases List.mem_append.mp h with h | h
      · exact toJsonItems_plain v c h
      · simp at h
        subst h; exact ⟨by decide, by decide⟩
  exact ⟨fun hm => (h _ hm).1 rfl, fun hm => (h _ hm).2 rfl⟩

theorem inputDesc_eq (nums : List Int) (target : Int) :
    inputDesc nums target = toJson nums ++ (", ".toList ++ to_string target) := by
  simp [inputDesc, toJson]

theorem inputDescription_plain (nums : List Int) (target : Int) :
    '"' ∉ ('[' :: (inputDesc nums target ++ [']'])) ∧
      '\\' ∉ ('[' :: (inputDesc nums target ++ [']'])) := by
  have h : ∀ c ∈ ('[' :: (inputDesc nums target ++ [']'])), c ≠ '"' ∧ c ≠ '\\' := by
    intro c hc
    rw [inputDesc_eq] at hc
    simp only [List.mem_cons, List.mem_append, List.mem_singleton, List.not_mem_nil,
      or_false] at hc
    rcases hc with h | (h | (h | h)) | h
    · subst h; exact ⟨by decide, by decide⟩
    · exact ⟨fun e => (toJson_plain nums).1 (e ▸ h), fun e => (toJson_plain nums).2 (e ▸ h)⟩
    · have h2 : c = ',' ∨ c = ' ' := by
        have : c ∈ [',', ' '] := h
        simpa using this
      rcases h2 with h2 | h2 <;> subst h2 <;> exact ⟨by decide, by decide⟩
    · exact to_string_plain target c h
    · subst h; exact ⟨by decide, by decide⟩
  exact ⟨fun hm => (h _ hm).1 rfl, fun hm => (h _ hm).2 rfl⟩

theorem renderResult_passed (nums : List Int) (target : Int) (run : CaseRun)
    (hrun : run.outcome = .returned (twoSum nums target)) :
    (caseResult nums target (twoSum nums target) run).status = passed ∧
    (caseResult nums target (twoSum nums target) run).output = toJson (twoSum nums target) ∧
    (caseResult nums target (twoSum nums target) run).error = [] ∧
    renderResult (caseResult nums target (twoSum nums target) run) =
      "\x7b\"passed\":true,\"input\":\"[".toList ++ toJson nums ++ ", ".toList
        ++ to_string target ++ "]\",\"actual\":\"".toList ++ toJson (twoSum nums target)
        ++ "\",\"error\":\"\"\x7d".toList := by
  have hst : (caseResult nums target (twoSum nums target) run).status = passed := by
    simp [caseResult, classify, hrun]
  refine ⟨hst, by simp [caseResult, classify, hrun], by simp [caseResult, classify, hrun], ?_⟩
  unfold renderResult
  rw [hst]
  simp only [caseResult, classify, hrun, if_true]
  rw [escapeJSON_id _ (inputDescription_plain nums target),
    escapeJSON_id _ (toJson_plain (twoSum nums target)), escapeJSON_nil, inputDesc_eq]
  simp

/-! ## The bound of the parser does not matter once it suffices -/

theorem arrayLoop_mono (p q : IStream → Option (JsonValue × IStream))
    (hpq : ∀ s x, p s = some x → q s = some x) :
    ∀ (k : Nat) (s : IStream) (acc : List JsonValue) (x : List JsonValue × IStream),
      arrayLoop p k s acc = some x → arrayLoop q (k + 1) s acc = some x := by
  intro k
  induction k with
  | zero => intro s acc x h; simp [arrayLoop] at h
  | succ k ih =>
    intro s acc x h
    unfold arrayLoop at h
    unfold arrayLoop
    split at h
    · rename_i hf; simp only [hf, if_true]; exact h
    · rename_i hf
      simp only [hf, if_false]
      split at h
      · rename_i hc; simp only [hc, if_true]; exact h
      · rename_i hc
        simp only [hc, if_false]
        split at h
        · cases h
        · rename_i v s1 hv
          rw [hpq _ _ hv]
          exact ih _ _ _ h

theorem objectLoop_mono (p q : IStream → Option (JsonValue × IStream))
    (hpq : ∀ s x, p s = some x → q s = some x) :
    ∀ (k : Nat) (s : IStream) (acc : List JsonValue) (x : List JsonValue × IStream),
      objectLoop p k s acc = some x → objectLoop q (k + 1) s acc = some x := by
  intro k
  induction k with
  | zero => intro s acc x h; simp [objectLoop] at h
  | succ k ih =>
    intro s acc x h
    unfold objectLoop at h
    unfold objectLoop
    split at h
    · rename_i hf; simp only [hf, if_true]; exact h
    · rename_i hf
      simp only [hf, if_false]
      split at h
      · rename_i hc; simp only [hc, if_true]; exact h
      · rename_i hc
        simp only [hc, if_false]
        split at h
        · cases h
        · rename_i key s1 hkey
          rw [hpq _ _ hkey]
          split at h
          · cases h
          · rename_i val s2 hval
            rw [hpq _ _ hval]
            exact ih _ _ _ h

theorem parseJsonFuel_succ : ∀ (n : Nat) (s : IStream) (x : JsonValue × IStream),
    parseJsonFuel n s = some x → parseJsonFuel (n + 1) s = some x := by
  intro n
  induction n with
  | zero => intro s x h; simp [parseJsonFuel] at h
  | succ n ih =>
    intro s x h
    unfold parseJsonFuel at h
    unfold parseJsonFuel
    split at h
    · rename_i hf; simp only [hf, if_true]; exact h
    · rename_i hf
      simp only [hf, if_false]
      split at h
      · rename_i s1 hg
        simp only [Bool.false_eq_true, if_false]
        exact h
      · rename_i c s1 hg
        simp only [Bool.false_eq_true, if_false]
        split at h
        · rename_i h1
          simp only [h1, if_true]
          split at h
          · cases h
          · rename_i arr s2 harr
            rw [arrayLoop_mono _ _ ih _ _ _ _ harr]
            exact h
        · rename_i h1
          simp only [h1, if_false]
          split at h
          · rename_i h2
            simp only [h2, if_true]
            split at h
            · cases h
            · rename_i arr s2 harr
              rw [objectLoop_mono _ _ ih _ _ _ _ harr]
              exact h
          · rename_i h2
            simp only [h2, if_false]
            exact h

theorem parseJsonFuel_mono (n m : Nat) (hnm : n ≤ m) (s : IStream) (x : JsonValue × IStream)
    (h : parseJsonFuel n s = some x) : parseJsonFuel m s = some x := by
  induction m with
  | zero =>
    have : n = 0 := by omega
    subst this; exact h
  | succ m ih =>
    by_cases hn : n = m + 1
    · subst hn; exact h
    · exact parseJsonFuel_succ m s x (ih (by omega))

/-- A result of the bounded parser, at any bound, is the result of `parseJson`. -/
theorem parseJson_of_fuel (n : Nat) (s : IStream) (x : JsonValue × IStream)
    (h : parseJsonFuel n s = some x) : parseJson s = x := by
  have h1 := parseJsonFuel_mono n (max n (s.weight + 1)) (le_max_left _ _) s x h
  have h2 := parseJsonFuel_mono (s.weight + 1) (max n (s.weight + 1)) (le_max_right _ _) s _
    (parseJson_eq s)
  rw [h1] at h2
  exact (Option.some.inj h2).symm

/-! ## Parsing compact texts -/

theorem ws_good_cons (c : Char) (r : List Char) (hc : isspace c = false) :
    ({ rest := c :: r, eofbit := false, failbit := false } : IStream).ws =
      { rest := c :: r, eofbit := false, failbit := false } := by
  simp [IStream.ws, List.dropWhile, hc]

theorem peek_good_cons (c : Char) (r : List Char) :
    ({ rest := c :: r, eofbit := false, failbit := false } : IStream).peek =
      (some c, { rest := c :: r, eofbit := false, failbit := false }) := by
  simp [IStream.peek]

theorem get_good_cons (c : Char) (r : List Char) :
    ({ rest := c :: r, eofbit := false, failbit := false } : IStream).get =
      (some c, { rest := r, eofbit := false, failbit := false }) := by
  simp [IStream.get]

theorem skipIf_hit (ch : Char) (r : List Char) (hc : isspace ch = false) :
    skipIf ch { rest := ch :: r, eofbit := false, failbit := false } =
      { rest := r, eofbit := false, failbit := false } := by
  simp [skipIf, ws_good_cons ch r hc, peek_good_cons, get_good_cons]

theorem skipIf_miss (ch c : Char) (r : List Char) (hc : isspace c = false) (hne : c ≠ ch) :
    skipIf ch { rest := c :: r, eofbit := false, failbit := false } =
      { rest := c :: r, eofbit := false, failbit := false } := by
  simp [skipIf, ws_good_cons c r hc, peek_good_cons, hne]

theorem tokenLoop_stop (t : Str) : ∀ (s : Str) (d : Char) (r : List Char),
    (∀ c ∈ t, isspace c = false ∧ c ≠ ',' ∧ c ≠ ']' ∧ c ≠ '}') →
    (isspace d = true ∨ d = ',' ∨ d = ']' ∨ d = '}') →
    tokenLoop s (t ++ d :: r) = (s ++ t, { rest := d :: r, eofbit := false, failbit := false }) := by
  induction t with
  | nil =>
    intro s d r _ hd
    simp [tokenLoop, hd]
  | cons c t ih =>
    intro s d r ht hd
    obtain ⟨h1, h2, h3, h4⟩ := ht c (List.mem_cons_self _ _)
    rw [List.cons_append, tokenLoop]
    simp only [h1, h2, h3, h4, Bool.false_eq_true, or_self, if_false]
    rw [ih _ _ _ (fun x hx => ht x (List.mem_cons_of_mem _ hx)) hd]
    simp

theorem parseJsonFuel_token (n : Nat) (c : Char) (t : Str) (d : Char) (r : List Char)
    (hc : c ≠ '[' ∧ c ≠ '{' ∧ c ≠ '"' ∧ isspace c = false)
    (ht : ∀ x ∈ t, isspace x = false ∧ x ≠ ',' ∧ x ≠ ']' ∧ x ≠ '}')
    (hd : isspace d = true ∨ d = ',' ∨ d = ']' ∨ d = '}') :
    parseJsonFuel (n + 1) { rest := c :: (t ++ d :: r), eofbit := false, failbit := false } =
      some (.mk (c :: t) [] false, { rest := d :: r, eofbit := false, failbit := false }) := by
  unfold parseJsonFuel
  rw [ws_good_cons _ _ hc.2.2.2, get_good_cons]
  simp only [Bool.false_eq_true, if_false, hc.1, hc.2.1, hc.2.2.1]
  rw [tokenLoop_stop t [c] d r ht hd]
  simp

theorem to_string_token (v : Int) :
    ∃ c t, to_string v = c :: t ∧ (c ≠ '[' ∧ c ≠ '{' ∧ c ≠ '"' ∧ isspace c = false) ∧ c ≠ ']' ∧
      ∀ x ∈ t, isspace x = false ∧ x ≠ ',' ∧ x ≠ ']' ∧ x ≠ '}' := by
  have hall : ∀ x ∈ to_string v, (x ≠ '[' ∧ x ≠ '{' ∧ x ≠ '"' ∧ isspace x = false) ∧
      x ≠ ',' ∧ x ≠ ']' ∧ x ≠ '}' := by
    intro x hx
    rcases to_string_chars v x hx with h | h
    · subst h; decide
    · have hp := isDigit_plain x h
      exact ⟨⟨hp.2.2.2.2.2.1, hp.2.2.2.2.2.2.1, hp.1, isDigit_not_space x h⟩,
        hp.2.2.1, hp.2.2.2.1, hp.2.2.2.2.1⟩
  have hne : to_string v ≠ [] := by
    unfold to_string
    split
    · simp
    · exact toDigits_ne_nil _
  rcases hs : to_string v with _ | ⟨c, t⟩
  · exact absurd hs hne
  · rw [hs] at hall
    refine ⟨c, t, rfl, (hall c (List.mem_cons_self _ _)).1,
      (hall c (List.mem_cons_self _ _)).2.2.1, ?_⟩
    intro x hx
    have := hall x (List.mem_cons_of_mem _ hx)
    exact ⟨this.1.2.2.2, this.2⟩

theorem parseJsonFuel_int (n : Nat) (v : Int) (d : Char) (r : List Char)
    (hd : d = ',' ∨ d = ']') :
    parseJsonFuel (n + 1) { rest := to_string v ++ d :: r, eofbit := false, failbit := false } =
      some (.mk (to_string v) [] false, { rest := d :: r, eofbit := false, failbit := false }) := by
  obtain ⟨c, t, hs, hc, _, ht⟩ := to_string_token v
  rw [hs]
  exact parseJsonFuel_token n c t d r hc ht
    (by rcases hd with h | h <;> simp [h])

theorem arrayLoop_items {α : Type} (p : IStream → Option (JsonValue × IStream))
    (f : α → Str) (g : α → JsonValue) (r : List Char) :
    ∀ (items : List α),
      (∀ x ∈ items, ∀ (d : Char) (r1 : List Char), (d = ',' ∨ d = ']') →
        p { rest := f x ++ d :: r1, eofbit := false, failbit := false } =
          some (g x, { rest := d :: r1, eofbit := false, failbit := false })) →
      (∀ x ∈ items, ∃ c t, f x = c :: t ∧ isspace c = false ∧ c ≠ ']') →
      ∀ (acc : List JsonValue) (k : Nat), items.length < k →
        arrayLoop p k
            { rest := toJsonItems f items ++ ']' :: r, eofbit := false, failbit := false } acc =
          some (acc ++ items.map g,
            { rest := ']' :: r, eofbit := false, failbit := false }) := by
  have hclose : ∀ (acc : List JsonValue) (k : Nat), 0 < k →
      arrayLoop p k { rest := ']' :: r, eofbit := false, failbit := false } acc =
        some (acc, { rest := ']' :: r, eofbit := false, failbit := false }) := by
    intro acc k hk
    obtain ⟨k1, rfl⟩ := Nat.exists_eq_succ_of_ne_zero (by omega : k ≠ 0)
    unfold arrayLoop
    rw [ws_good_cons _ _ (by decide), peek_good_cons]
    simp
  intro items
  induction items with
  | nil =>
    intro _ _ acc k hk
    simpa [toJsonItems] using hclose acc k (by simpa using hk)
  | cons x rest ih =>
    intro hp hf acc k hk
    obtain ⟨k1, rfl⟩ := Nat.exists_eq_succ_of_ne_zero (by omega : k ≠ 0)
    obtain ⟨c, t, hfx, hcs, hcb⟩ := hf x (List.mem_cons_self _ _)
    have hrest := ih (fun y hy => hp y (List.mem_cons_of_mem _ hy))
      (fun y hy => hf y (List.mem_cons_of_mem _ hy)) (acc ++ [g x]) k1
      (by simp at hk; omega)
    cases rest with
    | nil =>
      have hpx := hp x (List.mem_cons_self _ _) ']' r (Or.inr rfl)
      simp only [toJsonItems] at hrest ⊢
      rw [hfx] at hpx ⊢
      unfold arrayLoop
      rw [List.cons_append] at hpx ⊢
      rw [ws_good_cons _ _ hcs, peek_good_cons]
      simp only [Bool.false_eq_true, if_false, Option.some.injEq, hcb]
      rw [hpx]
      simp only
      rw [skipIf_miss ',' ']' r (by decide) (by decide)]
      simpa using hrest
    | cons y rest1 =>
      have hpx := hp x (List.mem_cons_self _ _) ','
        (toJsonItems f (y :: rest1) ++ ']' :: r) (Or.inl rfl)
      rw [toJsonItems]
      rw [hfx] at hpx ⊢
      unfold arrayLoop
      simp only [List.cons_append, List.append_assoc] at hpx ⊢
      rw [ws_good_cons _ _ hcs, peek_good_cons]
      simp only [Bool.false_eq_true, if_false, Option.some.injEq, hcb]
      rw [hpx]
      simp only
      rw [skipIf_hit ',' _ (by decide)]
      simpa using hrest

theorem parseJsonFuel_intArray (n : Nat) (v : List Int) (r : List Char)
    (hn : v.length + 1 ≤ n) :
    parseJsonFuel (n + 1) { rest := toJson v ++ r, eofbit := false, failbit := false } =
      some (intArrayNode v, { rest := r, eofbit := false, failbit := false }) := by
  obtain ⟨m, rfl⟩ := Nat.exists_eq_succ_of_ne_zero (by omega : n ≠ 0)
  have hloop := arrayLoop_items (parseJsonFuel (m + 1)) to_string
    (fun x => JsonValue.mk (to_string x) [] false) r v
    (fun x _ d r1 hd => parseJsonFuel_int m x d r1 hd)
    (fun x _ => by
      obtain ⟨c, t, hs, hc, hb, _⟩ := to_string_token x
      exact ⟨c, t, hs, hc.2.2.2, hb⟩)
    [] (m + 1) (by omega)
  unfold parseJsonFuel
  simp only [toJson, List.cons_append, List.append_assoc, List.singleton_append,
    List.nil_append]
  rw [ws_good_cons _ _ (by decide), get_good_cons]
  simp only [Bool.false_eq_true, if_false, if_true]
  rw [hloop]
  simp [get_good_cons, intArrayNode]

theorem parseJsonFuel_inputPair (n : Nat) (nums : List Int) (target : Int) (r : List Char)
    (hn : nums.length + 3 ≤ n) :
    parseJsonFuel (n + 1)
        { rest := '[' :: (toJson nums ++ ',' :: (to_string target ++ ']' :: r)),
          eofbit := false, failbit := false } =
      some (.mk [] [intArrayNode nums, .mk (to_string target) [] false] true,
        { rest := r, eofbit := false, failbit := false }) := by
  obtain ⟨m, rfl⟩ := Nat.exists_eq_succ_of_ne_zero (by omega : n ≠ 0)
  have hloop := arrayLoop_items (parseJsonFuel (m + 1)) (fun x : Str × JsonValue => x.1)
    (fun x => x.2) r [(toJson nums, intArrayNode nums),
      (to_string target, JsonValue.mk (to_string target) [] false)]
    (by
      intro x hx d r1 hd
      simp only [List.mem_cons, List.mem_singleton, List.not_mem_nil, or_false] at hx
      rcases hx with h | h
      · subst h
        exact parseJsonFuel_intArray m nums (d :: r1) (by omega)
      · subst h
        exact parseJsonFuel_int m target d r1 hd)
    (by
      intro x hx
      simp only [List.mem_cons, List.mem_singleton, List.not_mem_nil, or_false] at hx
      rcases hx with h | h
      · subst h
        exact ⟨'[', toJsonItems to_string nums ++ [']'], rfl, by decide, by decide⟩
      · subst h
        obtain ⟨c, t, hs, hc, hb, _⟩ := to_string_token target
        exact ⟨c, t, hs, hc.2.2.2, hb⟩)
    [] (m + 1) (by simp; omega)
  unfold parseJsonFuel
  rw [ws_good_cons _ _ (by decide), get_good_cons]
  simp only [Bool.false_eq_true, if_false, if_true]
  simp only [toJsonItems, List.append_assoc, List.cons_append] at hloop
  rw [hloop]
  simp [get_good_cons]

theorem caseText_append (c : List Int × Int × List Int) (r : List Char) :
    caseText c ++ r =
      '{' :: '"' :: ("input".toList ++ '"' :: ':' :: '[' :: (toJson c.1 ++ ',' ::
        (to_string c.2.1 ++ ']' :: ',' :: '"' :: ("expected".toList ++ '"' :: ':' ::
          (toJson c.2.2 ++ '}' :: r))))) := by
  simp [caseText]

theorem stringLoop_input (r : List Char) :
    stringLoop [] (Char.ofNat 0) ("input".toList ++ '"' :: r) =
      ("input".toList, { rest := r, eofbit := false, failbit := false }) := by
  simp [stringLoop]

theorem stringLoop_expected (r : List Char) :
    stringLoop [] (Char.ofNat 0) ("expected".toList ++ '"' :: r) =
      ("expected".toList, { rest := r, eofbit := false, failbit := false }) := by
  simp [stringLoop]

theorem objectLoop_step (p : IStream → Option (JsonValue × IStream)) (k : Nat) (c : Char)
    (r : List Char) (acc : List JsonValue) (hc : isspace c = false) (hne : c ≠ '}') :
    objectLoop p (k + 1) { rest := c :: r, eofbit := false, failbit := false } acc =
      match p { rest := c :: r, eofbit := false, failbit := false } with
      | none => none
      | some (key, s1) =>
        match p (skipIf ':' s1) with
        | none => none
        | some (val, s2) => objectLoop p k (skipIf ',' s2) (acc ++ [key, val]) := by
  rw [objectLoop, ws_good_cons _ _ hc, peek_good_cons]
  simp [hne]

theorem objectLoop_close (p : IStream → Option (JsonValue × IStream)) (k : Nat)
    (r : List Char) (acc : List JsonValue) :
    objectLoop p (k + 1) { rest := '}' :: r, eofbit := false, failbit := false } acc =
      some (acc, { rest := '}' :: r, eofbit := false, failbit := false }) := by
  rw [objectLoop, ws_good_cons _ _ (by decide), peek_good_cons]
  simp

theorem parseJsonFuel_brace (n : Nat) (r : List Char) :
    parseJsonFuel (n + 1) { rest := '{' :: r, eofbit := false, failbit := false } =
      match objectLoop (parseJsonFuel n) n { rest := r, eofbit := false, failbit := false } []
        with
      | none => none
      | some (arr, s2) => some (.mk [] arr false, s2.get.2) := by
  rw [parseJsonFuel, ws_good_cons _ _ (by decide), get_good_cons]
  simp

theorem parseJsonFuel_bracket (n : Nat) (r : List Char) :
    parseJsonFuel (n + 1) { rest := '[' :: r, eofbit := false, failbit := false } =
      match arrayLoop (parseJsonFuel n) n { rest := r, eofbit := false, failbit := false } []
        with
      | none => none
      | some (arr, s2) => some (.mk [] arr true, s2.get.2) := by
  rw [parseJsonFuel, ws_good_cons _ _ (by decide), get_good_cons]
  simp

theorem parseJsonFuel_case (n : Nat) (c : List Int × Int × List Int) (r : List Char)
    (hn : c.1.length + c.2.2.length + 6 ≤ n) :
    parseJsonFuel (n + 1) { rest := caseText c ++ r, eofbit := false, failbit := false } =
      some (caseNode c, { rest := r, eofbit := false, failbit := false }) := by
  obtain ⟨k, rfl⟩ : ∃ k, n = k + 4 := ⟨n - 4, by omega⟩
  rw [caseText_append, parseJsonFuel_brace]
  have hloop : objectLoop (parseJsonFuel (k + 4)) (k + 4)
      { rest := '"' :: ("input".toList ++ '"' :: ':' :: '[' :: (toJson c.1 ++ ',' ::
          (to_string c.2.1 ++ ']' :: ',' :: '"' :: ("expected".toList ++ '"' :: ':' ::
            (toJson c.2.2 ++ '}' :: r))))), eofbit := false, failbit := false } [] =
      some ((caseNode c).array,
        { rest := '}' :: r, eofbit := false, failbit := false }) := by
    rw [objectLoop_step _ _ _ _ _ (by decide) (by decide), parseJsonFuel_quote,
      stringLoop_input]
    dsimp only
    rw [skipIf_hit ':' _ (by decide), parseJsonFuel_inputPair (k + 3) c.1 c.2.1 _ (by omega)]
    dsimp only
    rw [skipIf_hit ',' _ (by decide)]
    rw [objectLoop_step _ _ _ _ _ (by decide) (by decide), parseJsonFuel_quote,
      stringLoop_expected]
    dsimp only
    rw [skipIf_hit ':' _ (by decide), parseJsonFuel_intArray (k + 3) c.2.2 _ (by omega)]
    dsimp only
    rw [skipIf_miss ',' '}' _ (by decide) (by decide), objectLoop_close]
    rfl
  rw [hloop]
  dsimp only
  rw [get_good_cons]
  rfl

theorem exists_case_bound (cases : List (List Int × Int × List Int)) :
    ∃ B, ∀ c ∈ cases, c.1.length + c.2.2.length + 6 ≤ B := by
  induction cases with
  | nil => exact ⟨0, fun c hc => by cases hc⟩
  | cons c rest ih =>
    obtain ⟨B, hB⟩ := ih
    refine ⟨max B (c.1.length + c.2.2.length + 6), ?_⟩
    intro x hx
    rcases List.mem_cons.mp hx with h | h
    · subst h; exact le_max_right _ _
    · exact le_trans (hB x h) (le_max_left _ _)

theorem parseJson_battery (cases : List (List Int × Int × List Int)) :
    parseJson (IStream.ofText (batteryText cases)) =
      (.mk [] (cases.map caseNode) true, { rest := [], eofbit := false, failbit := false }) := by
  obtain ⟨B, hB⟩ := exists_case_bound cases
  apply parseJson_of_fuel (B + cases.length + 3)
  have hloop := arrayLoop_items (parseJsonFuel (B + cases.length + 1 + 1)) caseText caseNode []
    cases
    (fun c hc d r1 _ => parseJsonFuel_case (B + cases.length + 1) c (d :: r1)
      (by have := hB c hc; omega))
    (fun c _ => ⟨'{', _, by have := caseText_append c []; rw [List.append_nil] at this; exact this,
      by decide, by decide⟩)
    [] (B + cases.length + 1 + 1) (by omega)
  unfold IStream.ofText batteryText
  rw [parseJsonFuel_bracket, hloop]
  dsimp only
  rw [get_good_cons]
  rfl

theorem stoi_to_string (x : Int) (h : inIntRange x) : stoi (to_string x) = some x := by
  have hds := toDigits_all_digit x.natAbs
  have hne := toDigits_ne_nil x.natAbs
  have hval := digitsValue_toDigits x.natAbs
  have htake : (Nat.toDigits 10 x.natAbs).takeWhile Char.isDigit = Nat.toDigits 10 x.natAbs :=
    List.takeWhile_eq_self_iff.mpr hds
  rcases hd : Nat.toDigits 10 x.natAbs with _ | ⟨c, t⟩
  · exact absurd hd hne
  · have hc : c.isDigit = true := hds c (by rw [hd]; exact List.mem_cons_self _ _)
    have hsp := isDigit_not_space c hc
    have hpl := isDigit_plain c hc
    rw [hd] at htake hval
    unfold inIntRange at h
    unfold stoi to_string
    by_cases hneg : x < 0
    · simp only [hneg, if_true, hd]
      have hm : isspace '-' = false := by decide
      have hdrop : ('-' :: c :: t).dropWhile isspace = '-' :: c :: t := by
        simp [List.dropWhile, hm]
      simp only [hdrop, List.head?_cons, List.tail_cons, true_or, if_true, htake]
      rw [if_neg (List.cons_ne_nil c t), hval]
      have hx : (-(x.natAbs : Int)) = x := by omega
      rw [hx, if_neg (by omega)]
    · simp only [hneg, if_false, hd]
      have hdrop : (c :: t).dropWhile isspace = c :: t := by
        simp [List.dropWhile, hsp]
      have h2 : (some c = some '-') = False := by simp [hpl.2.2.2.2.2.2.2.1]
      have h3 : (some c = some '+') = False := by simp [hpl.2.2.2.2.2.2.2.2]
      simp only [hdrop, List.head?_cons, h2, h3, or_self, if_false, htake]
      rw [if_neg (List.cons_ne_nil c t), hval]
      have hx : ((x.natAbs : Int)) = x := by omega
      rw [hx, if_neg (by omega)]

theorem asIntArrayLoop_map (v : List Int) (h : ∀ x ∈ v, inIntRange x) :
    asIntArrayLoop (v.map (fun x => JsonValue.mk (to_string x) [] false)) = some v := by
  induction v with
  | nil => rfl
  | cons x rest ih =>
    simp only [List.map_cons, asIntArrayLoop, asInt, JsonValue.raw,
      stoi_to_string x (h x (List.mem_cons_self _ _)),
      ih (fun y hy => h y (List.mem_cons_of_mem _ hy))]

theorem extractCase_caseNode (c : List Int × Int × List Int)
    (h1 : ∀ x ∈ c.1, inIntRange x) (h2 : inIntRange c.2.1) (h3 : ∀ x ∈ c.2.2, inIntRange x) :
    extractCase (caseNode c) = .ok c := by
  have hk : keyLoop (caseNode c).array (JsonValue.empty, JsonValue.empty) =
      (.mk [] [intArrayNode c.1, .mk (to_string c.2.1) [] false] true, intArrayNode c.2.2) := by
    simp [caseNode, JsonValue.array, keyLoop, JsonValue.raw]
  unfold extractCase
  rw [hk]
  simp only [JsonValue.array, List.getElem?_cons_zero, List.getElem?_cons_succ, asIntArray,
    intArrayNode, asIntArrayLoop_map _ h1, asIntArrayLoop_map _ h3, asInt, JsonValue.raw,
    stoi_to_string _ h2]

/-! ## C7 -/

theorem caseLoop_twoSum (meas : Nat → Int × Int) :
    ∀ (arr : List JsonValue) (cases : List (List Int × Int × List Int)) (i : Nat),
      arr.map extractCase = cases.map Except.ok →
      (∀ c ∈ cases, c.2.2 = twoSum c.1 c.2.1) →
      ∃ results, caseLoop (twoSumEnv meas) i arr = .ok results ∧
        (∀ r ∈ results, r.status = passed) ∧
        results.map renderResult = cases.map acceptedEntry := by
  intro arr
  induction arr with
  | nil =>
    intro cases i hx _
    cases cases with
    | nil => exact ⟨[], rfl, fun r hr => (by cases hr), rfl⟩
    | cons c cs => simp at hx
  | cons tc rest ih =>
    intro cases i hx hexp
    cases cases with
    | nil => simp at hx
    | cons c cs =>
      simp only [List.map_cons, List.cons.injEq] at hx
      obtain ⟨rs, hrs, hpass, hrender⟩ := ih cs (i + 1) hx.2
        (fun y hy => hexp y (List.mem_cons_of_mem _ hy))
      have hc := hexp c (List.mem_cons_self _ _)
      have hr := renderResult_passed c.1 c.2.1 (twoSumEnv meas i c.1 c.2.1) rfl
      refine ⟨caseResult c.1 c.2.1 (twoSum c.1 c.2.1) (twoSumEnv meas i c.1 c.2.1) :: rs,
        ?_, ?_, ?_⟩
      · have hx1 : extractCase tc = .ok (c.1, c.2.1, twoSum c.1 c.2.1) := by
          rw [hx.1, ← hc]
        simp [caseLoop, runCase, hx1, hrs]
      · intro r hr1
        rcases List.mem_cons.mp hr1 with h | h
        · rw [h]; exact hr.1
        · exact hpass r h
      · simp only [List.map_cons, hrender, hr.2.2.2, acceptedEntry, hc]

theorem mainProgram_accepted (meas : Nat → Int × Int) (input : Str)
    (cases : List (List Int × Int × List Int))
    (hroot : (parseJson (IStream.ofText input)).1.is_array = true)
    (hextract : (parseJson (IStream.ofText input)).1.array.map extractCase
      = cases.map Except.ok)
    (hexp : ∀ c ∈ cases, c.2.2 = twoSum c.1 c.2.1) :
    ∃ mr mm, mainProgram (twoSumEnv meas) input = .ok (0, acceptedReport mr mm cases) := by
  obtain ⟨results, hres, hpass, hrender⟩ := caseLoop_twoSum meas _ cases 0 hextract hexp
  refine ⟨(aggregate results).max_runtime, (aggregate results).max_memory, ?_⟩
  have hv : (aggregate results).final_verdict = ACCEPTED := by
    unfold aggregate
    rw [foldl_verdict_passed results _ hpass]
  simp only [mainProgram, hroot, hres, Bool.not_true, Bool.false_eq_true, if_false]
  simp only [renderReport, hv, toJsonItems_eq_intercalate, hrender, acceptedReport, ACCEPTED]
  simp

/-- C7: let `cases` be test cases `(nums, target, expected)` in each of which `expected`
is what `Solution::twoSum` returns for `(nums, target)`. For every input text whose
parsed root is a positional sequence and whose groupings extract to `cases`, the program
(parse, extract, run, classify, aggregate, serialize) exits with `0` and writes the
report with verdict `ACCEPTED` and one entry per case, in order, with `passed` true,
`actual` the serialized returned sequence and an empty `error`. The compact text
`batteryText cases` of integers in the `int` range is such an input. -/
theorem end_to_end_acceptance (meas : Nat → Int × Int)
    (cases : List (List Int × Int × List Int))
    (hexp : ∀ c ∈ cases, c.2.2 = twoSum c.1 c.2.1) :
    (∀ input : Str,
      (parseJson (IStream.ofText input)).1.is_array = true →
      (parseJson (IStream.ofText input)).1.array.map extractCase = cases.map Except.ok →
      ∃ mr mm, mainProgram (twoSumEnv meas) input = .ok (0, acceptedReport mr mm cases)) ∧
    ((∀ c ∈ cases, (∀ x ∈ c.1, inIntRange x) ∧ inIntRange c.2.1 ∧ ∀ x ∈ c.2.2, inIntRange x) →
      ∃ mr mm, mainProgram (twoSumEnv meas) (batteryText cases)
        = .ok (0, acceptedReport mr mm cases)) := by
  refine ⟨fun input hroot hextract => mainProgram_accepted meas input cases hroot hextract hexp,
    ?_⟩
  intro hrange
  refine mainProgram_accepted meas (batteryText cases) cases ?_ ?_ hexp
  · rw [parseJson_battery]; rfl
  · rw [parseJson_battery]
    simp only [JsonValue.array, List.map_map]
    apply List.map_congr_left
    intro c hc
    exact extractCase_caseNode c (hrange c hc).1 (hrange c hc).2.1 (hrange c hc).2.2

/-- C7 at the input `[\x7b"input":[[2,7,11,15],9],"expected":[0,1]\x7d]`: verdict
`ACCEPTED`, one passed case, `actual` `[0,1]`. -/
theorem end_to_end_acceptance_witness :
    batteryText [([2, 7, 11, 15], 9, [0, 1])] =
      "[\x7b\"input\":[[2,7,11,15],9],\"expected\":[0,1]\x7d]".toList ∧
    acceptedReport 3 1000 [([2, 7, 11, 15], 9, [0, 1])] =
      ("\x7b\"verdict\":\"ACCEPTED\",\"runtime\":3,\"memory\":1000,\"test_results\":[" ++
        "\x7b\"passed\":true,\"input\":\"[[2,7,11,15], 9]\",\"actual\":\"[0,1]\"," ++
        "\"error\":\"\"\x7d]\x7d\n").toList ∧
    ∃ mr mm, mainProgram (twoSumEnv (fun _ => (3, 1000)))
        "[\x7b\"input\":[[2,7,11,15],9],\"expected\":[0,1]\x7d]".toList
      = .ok (0, acceptedReport mr mm [([2, 7, 11, 15], 9, [0, 1])]) :=
  ⟨rfl, rfl, (end_to_end_acceptance (fun _ => (3, 1000)) [([2, 7, 11, 15], 9, [0, 1])]
    (by simp; rfl)).2 (by simp [inIntRange])⟩


/-! ## C11 -/

theorem dropWhile_isspace_append (w : Str) (r : List Char) (hw : ∀ c ∈ w, isspace c = true)
    (hr : ∀ c, r.head? = some c → isspace c = false) :
    (w ++ r).dropWhile isspace = r := by
  induction w with
  | nil =>
    cases r with
    | nil => rfl
    | cons c r => simp [List.dropWhile, hr c rfl]
  | cons c w ih =>
    have h := ih (fun x hx => hw x (List.mem_cons_of_mem _ hx))
    simp only [List.cons_append, List.dropWhile, hw c (List.mem_cons_self _ _)]
    exact h

theorem takeWhile_isDigit_append (ds t : Str) (hds : ∀ c ∈ ds, c.isDigit = true)
    (ht : ∀ c, t.head? = some c → c.isDigit = false) :
    (ds ++ t).takeWhile Char.isDigit = ds := by
  induction ds with
  | nil =>
    cases t with
    | nil => rfl
    | cons c t => simp [List.takeWhile, ht c rfl]
  | cons c ds ih =>
    have h := ih (fun x hx => hds x (List.mem_cons_of_mem _ hx))
    simp only [List.cons_append, List.takeWhile, hds c (List.mem_cons_self _ _)]
    exact congrArg (c :: ·) h

theorem stoi_digit_run (w sign ds t : Str)
    (hw : ∀ c ∈ w, isspace c = true)
    (hsign : sign = [] ∨ sign = ['-'] ∨ sign = ['+'])
    (hds : ∀ c ∈ ds, c.isDigit = true)
    (ht : ∀ c, t.head? = some c → c.isDigit = false)
    (hbare : sign = [] → ds = [] →
      ∀ c, t.head? = some c → isspace c = false ∧ c ≠ '-' ∧ c ≠ '+') :
    stoi (w ++ (sign ++ (ds ++ t))) =
      if ds = [] then none
      else if inIntRange (if sign = ['-'] then -(digitsValue ds : Int) else digitsValue ds)
        then some (if sign = ['-'] then -(digitsValue ds : Int) else digitsValue ds)
        else none := by
  have hrange : ∀ v : Int, (if v < -2147483648 ∨ 2147483647 < v then none else some v)
      = if inIntRange v then some v else none := by
    intro v
    unfold inIntRange
    by_cases h : v < -2147483648 ∨ 2147483647 < v
    · rw [if_pos h, if_neg (by omega)]
    · rw [if_neg h, if_pos (by omega)]
  have htake := takeWhile_isDigit_append ds t hds ht
  rcases hsign with hs | hs | hs
  · -- no sign
    subst hs
    have hhead : ∀ c, (ds ++ t).head? = some c →
        isspace c = false ∧ c ≠ '-' ∧ c ≠ '+' := by
      intro c hc
      cases ds with
      | nil => exact hbare rfl rfl c hc
      | cons d ds =>
        simp at hc
        subst hc
        have hd := hds d (List.mem_cons_self _ _)
        exact ⟨isDigit_not_space d hd, (isDigit_plain d hd).2.2.2.2.2.2.2.1,
          (isDigit_plain d hd).2.2.2.2.2.2.2.2⟩
    have hdrop := dropWhile_isspace_append w (ds ++ t) hw (fun c hc => (hhead c hc).1)
    have hns : ¬ ((ds ++ t).head? = some '-' ∨ (ds ++ t).head? = some '+') := by
      rintro (h | h)
      · exact (hhead _ h).2.1 rfl
      · exact (hhead _ h).2.2 rfl
    have hnm : ¬ ((ds ++ t).head? = some '-') := fun h => hns (Or.inl h)
    unfold stoi
    simp only [List.nil_append, hdrop, if_neg hns, if_neg hnm, htake]
    rw [hrange]
    simp
  · -- minus sign
    subst hs
    have hdrop := dropWhile_isspace_append w ('-' :: (ds ++ t)) hw
      (fun c hc => by simp at hc; subst hc; decide)
    unfold stoi
    simp only [List.cons_append, List.nil_append, hdrop, List.head?_cons, true_or, if_true,
      List.tail_cons, htake]
    rw [hrange]
  · -- plus sign
    subst hs
    have hdrop := dropWhile_isspace_append w ('+' :: (ds ++ t)) hw
      (fun c hc => by simp at hc; subst hc; decide)
    have hpm : ¬ (some '+' = some '-') := by decide
    have hne : ¬ (['+'] = ['-']) := by decide
    unfold stoi
    simp only [List.cons_append, List.nil_append, hdrop, List.head?_cons, or_true, if_true,
      List.tail_cons, htake, if_neg hpm, if_neg hne]
    rw [hrange]

theorem asIntArrayLoop_none (items : List JsonValue) :
    asIntArrayLoop items = none ↔ ∃ c ∈ items, asInt c = none := by
  induction items with
  | nil => simp [asIntArrayLoop]
  | cons item rest ih =>
    unfold asIntArrayLoop
    cases h1 : asInt item with
    | none => simp [h1]
    | some x =>
      cases h2 : asIntArrayLoop rest with
      | none =>
        obtain ⟨c, hc, hcn⟩ := ih.mp h2
        simp only [true_iff]
        exact ⟨c, List.mem_cons_of_mem _ hc, hcn⟩
      | some xs =>
        simp only [false_iff, reduceCtorEq]
        rintro ⟨c, hc, hcn⟩
        rcases List.mem_cons.mp hc with e | hmem
        · rw [e, h1] at hcn; cases hcn
        · have := ih.mpr ⟨c, hmem, hcn⟩
          rw [h2] at this; cases this

/-- C11 as stated fails: `asInt` returns `12` on the raw text `12abc` and `1` on the raw
text `1.5`; `stoi` converts the leading digits and ignores what follows them. -/
theorem asInt_counterexample :
    asInt (.mk "12abc".toList [] false) = some 12 ∧
    asInt (.mk "1.5".toList [] false) = some 1 :=
  ⟨rfl, rfl⟩

/-- C11 (amended): write the raw text of a scalar node as whitespace `w`, an optional
sign, the longest run of decimal digits `ds` and a rest `t` that does not start with a
digit. `asInt` fails when `ds` is empty (no digit after the whitespace and the sign: empty
text, `abc`) and when the signed value of `ds` is outside the `int` range; otherwise it
returns that value, whatever `t` is (`12abc` gives `12`, `1.5` gives `1`). `asIntArray`
fails exactly when `asInt` fails on one of the children, and on the decimal rendering of
an `int` value `asInt` returns that value. -/
theorem asInt_failure (w sign ds t : Str) (arr : List JsonValue) (b : Bool)
    (hw : ∀ c ∈ w, isspace c = true)
    (hsign : sign = [] ∨ sign = ['-'] ∨ sign = ['+'])
    (hds : ∀ c ∈ ds, c.isDigit = true)
    (ht : ∀ c, t.head? = some c → c.isDigit = false)
    (hbare : sign = [] → ds = [] →
      ∀ c, t.head? = some c → isspace c = false ∧ c ≠ '-' ∧ c ≠ '+') :
    asInt (.mk (w ++ (sign ++ (ds ++ t))) arr b) =
      (if ds = [] then none
       else if inIntRange (if sign = ['-'] then -(digitsValue ds : Int) else digitsValue ds)
         then some (if sign = ['-'] then -(digitsValue ds : Int) else digitsValue ds)
         else none) ∧
    (∀ v : JsonValue, asIntArray v = none ↔ ∃ c ∈ v.array, asInt c = none) ∧
    (∀ x : Int, inIntRange x → asInt (.mk (to_string x) arr b) = some x) :=
  ⟨stoi_digit_run w sign ds t hw hsign hds ht hbare,
   fun v => asIntArrayLoop_none v.array,
   fun x hx => stoi_to_string x hx⟩

/-- C11 (amended) at the raw text ` -2147483649xyz`: the digits give a value below the
`int` range, so `asInt` fails. -/
theorem asInt_failure_witness :
    asInt (.mk ([' '] ++ (['-'] ++ ("2147483649".toList ++ "xyz".toList))) [] false) = none :=
  (asInt_failure [' '] ['-'] "2147483649".toList "xyz".toList [] false
    (by decide) (by decide) (by decide) (by decide) (by decide)).1.trans (by decide)


/-! ## C14 -/

theorem parseJson_toJson (v : List Int) :
    parseJson (IStream.ofText (toJson v)) =
      (intArrayNode v, { rest := [], eofbit := false, failbit := false }) := by
  apply parseJson_of_fuel (v.length + 2)
  have h := parseJsonFuel_intArray (v.length + 1) v [] (by omega)
  rw [List.append_nil] at h
  exact h

/-- C14: for every list `v` of `int` values, `parseJson` on `toJson v` consumes the whole
text and returns a positional-sequence node with exactly `|v|` children, all scalars
without children, holding the decimal renderings in order; `asIntArray` of that node is
`v`; `toJson v` is `[`, the decimal renderings separated by single commas, `]`, and
`[]` for the empty list. -/
theorem int_sequence_roundtrip (v : List Int) (hv : ∀ x ∈ v, inIntRange x) :
    parseJson (IStream.ofText (toJson v)) =
      (.mk [] (v.map (fun x => JsonValue.mk (to_string x) [] false)) true,
        { rest := [], eofbit := false, failbit := false }) ∧
    (parseJson (IStream.ofText (toJson v))).1.is_array = true ∧
    (parseJson (IStream.ofText (toJson v))).1.array.length = v.length ∧
    (∀ c ∈ (parseJson (IStream.ofText (toJson v))).1.array,
      c.array = [] ∧ c.is_array = false) ∧
    asIntArray (parseJson (IStream.ofText (toJson v))).1 = some v ∧
    toJson v = '[' :: ([','].intercalate (v.map to_string) ++ [']']) ∧
    toJson [] = ['[', ']'] := by
  have hp := parseJson_toJson v
  refine ⟨hp, ?_, ?_, ?_, ?_, ?_, rfl⟩
  · rw [hp]; rfl
  · rw [hp]; simp [intArrayNode, JsonValue.array]
  · rw [hp]
    intro c hc
    simp only [intArrayNode, JsonValue.array, List.mem_map] at hc
    obtain ⟨x, _, hx⟩ := hc
    rw [← hx]
    exact ⟨rfl, rfl⟩
  · rw [hp]
    exact asIntArrayLoop_map v hv
  · simp [toJson, toJsonItems_eq_intercalate]

/-- C14 at the list `[3, -20, 0]`: the text is `[3,-20,0]` and it parses back to the
same integers. -/
theorem int_sequence_roundtrip_witness :
    toJson [3, -20, 0] = "[3,-20,0]".toList ∧
    asIntArray (parseJson (IStream.ofText (toJson [3, -20, 0]))).1 = some [3, -20, 0] :=
  ⟨rfl, (int_sequence_roundtrip [3, -20, 0] (by decide)).2.2.2.2.1⟩

/-! ## C15 -/

theorem tokenLoop_end (t : Str) : ∀ (s : Str),
    (∀ c ∈ t, isspace c = false ∧ c ≠ ',' ∧ c ≠ ']' ∧ c ≠ '}') →
    tokenLoop s t = (s ++ t, { rest := [], eofbit := true, failbit := false }) := by
  induction t with
  | nil => intro s _; simp [tokenLoop]
  | cons c t ih =>
    intro s ht
    obtain ⟨h1, h2, h3, h4⟩ := ht c (List.mem_cons_self _ _)
    rw [tokenLoop]
    simp only [h1, h2, h3, h4, Bool.false_eq_true, or_self, if_false]
    rw [ih _ (fun x hx => ht x (List.mem_cons_of_mem _ hx))]
    simp

/-- C15: for every non-empty text `t` whose first character is none of `[`, `\x7b`, `"`
and none of whose characters is whitespace, `,`, `]` or `\x7d`, and every remainder `r`
that is empty or starts with whitespace, `,`, `]` or `\x7d`, `parseJson` on `t` followed
by `r` returns a scalar node without children whose raw text is exactly `t`, and leaves
exactly `r` unread (with `eofbit` set when `r` is empty, `failbit` clear). -/
theorem bare_token_verbatim (t r : Str) (hne : t ≠ [])
    (hfirst : ∀ c, t.head? = some c → c ≠ '[' ∧ c ≠ '{' ∧ c ≠ '"')
    (ht : ∀ c ∈ t, isspace c = false ∧ c ≠ ',' ∧ c ≠ ']' ∧ c ≠ '}')
    (hr : ∀ d, r.head? = some d → isspace d = true ∨ d = ',' ∨ d = ']' ∨ d = '}') :
    parseJson (IStream.ofText (t ++ r)) =
      (.mk t [] false, { rest := r, eofbit := r.isEmpty, failbit := false }) := by
  rcases t with _ | ⟨c, t⟩
  · exact absurd rfl hne
  · have hc := hfirst c rfl
    have hcs := (ht c (List.mem_cons_self _ _)).1
    have ht' : ∀ x ∈ t, isspace x = false ∧ x ≠ ',' ∧ x ≠ ']' ∧ x ≠ '}' :=
      fun x hx => ht x (List.mem_cons_of_mem _ hx)
    apply parseJson_of_fuel 1
    rcases r with _ | ⟨d, r⟩
    · unfold parseJsonFuel IStream.ofText
      rw [List.append_nil, ws_good_cons _ _ hcs, get_good_cons]
      simp only [Bool.false_eq_true, if_false, hc.1, hc.2.1, hc.2.2]
      rw [tokenLoop_end t [c] ht']
      simp
    · exact parseJsonFuel_token 0 c t d r ⟨hc.1, hc.2.1, hc.2.2, hcs⟩ ht' (hr d rfl)

/-- C15 at the token `nul1-x` followed by `, 2]`: the raw text is the token, uninterpreted,
and the remainder is left unread. -/
theorem bare_token_verbatim_witness :
    parseJson (IStream.ofText ("nul1-x".toList ++ ", 2]".toList)) =
      (.mk "nul1-x".toList [] false,
        { rest := ", 2]".toList, eofbit := false, failbit := false }) :=
  bare_token_verbatim "nul1-x".toList ", 2]".toList (by decide) (by decide) (by decide)
    (by decide)


/-! ## C17 -/

theorem keyLoop_fst_none : ∀ (children : List JsonValue) (acc : JsonValue × JsonValue),
    (∀ k key, k % 2 = 0 → children[k]? = some key → k + 1 < children.length →
      key.raw ≠ "input".toList) →
    (keyLoop children acc).1 = acc.1
  | [], acc, _ => by simp [keyLoop]
  | [_], acc, _ => by simp [keyLoop]
  | key :: val :: rest, (a, b), h => by
    have h0 : key.raw ≠ "input".toList := h 0 key rfl rfl (by simp)
    rw [keyLoop, keyLoop_fst_none rest _ (fun k key1 hk hget hlt =>
      h (k + 2) key1 (by omega) (by simpa using hget) (by simp; omega))]
    exact if_neg h0

theorem keyLoop_snd_none : ∀ (children : List JsonValue) (acc : JsonValue × JsonValue),
    (∀ k key, k % 2 = 0 → children[k]? = some key → k + 1 < children.length →
      key.raw ≠ "expected".toList) →
    (keyLoop children acc).2 = acc.2
  | [], acc, _ => by simp [keyLoop]
  | [_], acc, _ => by simp [keyLoop]
  | key :: val :: rest, (a, b), h => by
    have h0 : key.raw ≠ "expected".toList := h 0 key rfl rfl (by simp)
    rw [keyLoop, keyLoop_snd_none rest _ (fun k key1 hk hget hlt =>
      h (k + 2) key1 (by omega) (by simpa using hget) (by simp; omega))]
    exact if_neg h0

theorem keyLoop_fst_last : ∀ (children : List JsonValue) (acc : JsonValue × JsonValue)
    (k : Nat) (key val : JsonValue),
    k % 2 = 0 → children[k]? = some key → children[k + 1]? = some val →
    key.raw = "input".toList →
    (∀ k1 key1, k < k1 → k1 % 2 = 0 → children[k1]? = some key1 →
      k1 + 1 < children.length → key1.raw ≠ "input".toList) →
    (keyLoop children acc).1 = val
  | [], _, k, key, val, _, hk, _, _, _ => by simp at hk
  | [_], _, k, key, val, _, _, hv, _, _ => by simp at hv
  | key0 :: val0 :: rest, (a, b), 0, key, val, _, hk, hv, hraw, hlast => by
    simp at hk hv
    subst hk hv
    rw [keyLoop, keyLoop_fst_none rest _ (fun k1 key1 hk1 hget hlt =>
      hlast (k1 + 2) key1 (by omega) (by omega) (by simpa using hget) (by simp; omega))]
    simp [hraw]
  | key0 :: val0 :: rest, (a, b), 1, key, val, hpar, _, _, _, _ => by omega
  | key0 :: val0 :: rest, (a, b), k + 2, key, val, hpar, hk, hv, hraw, hlast => by
    rw [keyLoop]
    exact keyLoop_fst_last rest _ k key val (by omega) (by simpa using hk)
      (by simpa using hv) hraw
      (fun k1 key1 hlt hk1 hget hb =>
        hlast (k1 + 2) key1 (by omega) (by omega) (by simpa using hget) (by simp; omega))

theorem keyLoop_snd_last : ∀ (children : List JsonValue) (acc : JsonValue × JsonValue)
    (k : Nat) (key val : JsonValue),
    k % 2 = 0 → children[k]? = some key → children[k + 1]? = some val →
    key.raw = "expected".toList →
    (∀ k1 key1, k < k1 → k1 % 2 = 0 → children[k1]? = some key1 →
      k1 + 1 < children.length → key1.raw ≠ "expected".toList) →
    (keyLoop children acc).2 = val
  | [], _, k, key, val, _, hk, _, _, _ => by simp at hk
  | [_], _, k, key, val, _, _, hv, _, _ => by simp at hv
  | key0 :: val0 :: rest, (a, b), 0, key, val, _, hk, hv, hraw, hlast => by
    simp at hk hv
    subst hk hv
    rw [keyLoop, keyLoop_snd_none rest _ (fun k1 key1 hk1 hget hlt =>
      hlast (k1 + 2) key1 (by omega) (by omega) (by simpa using hget) (by simp; omega))]
    simp [hraw]
  | key0 :: val0 :: rest, (a, b), 1, key, val, hpar, _, _, _, _ => by omega
  | key0 :: val0 :: rest, (a, b), k + 2, key, val, hpar, hk, hv, hraw, hlast => by
    rw [keyLoop]
    exact keyLoop_snd_last rest _ k key val (by omega) (by simpa using hk)
      (by simpa using hv) hraw
      (fun k1 key1 hlt hk1 hget hb =>
        hlast (k1 + 2) key1 (by omega) (by omega) (by simpa using hget) (by simp; omega))

/-- C17: for every node `tc`, the value the case loop uses for the key `"input"` (and
likewise for `"expected"`) is the child at index `k + 1` for the largest even index `k`
with `k + 1 < |children|` and `children[k].raw` equal to the key; odd-index children are
never taken as keys, a repeated key resolves to its last occurrence, and when there is no
such `k` the value is the default node: empty raw text, no children. -/
theorem key_lookup (tc : JsonValue) :
    (∀ (k : Nat) (key val : JsonValue), k % 2 = 0 → tc.array[k]? = some key →
      tc.array[k + 1]? = some val → key.raw = "input".toList →
      (∀ k1 key1, k < k1 → k1 % 2 = 0 → tc.array[k1]? = some key1 →
        k1 + 1 < tc.array.length → key1.raw ≠ "input".toList) →
      (keyLoop tc.array (JsonValue.empty, JsonValue.empty)).1 = val) ∧
    ((∀ k key, k % 2 = 0 → tc.array[k]? = some key → k + 1 < tc.array.length →
        key.raw ≠ "input".toList) →
      (keyLoop tc.array (JsonValue.empty, JsonValue.empty)).1 = .mk [] [] false) ∧
    (∀ (k : Nat) (key val : JsonValue), k % 2 = 0 → tc.array[k]? = some key →
      tc.array[k + 1]? = some val → key.raw = "expected".toList →
      (∀ k1 key1, k < k1 → k1 % 2 = 0 → tc.array[k1]? = some key1 →
        k1 + 1 < tc.array.length → key1.raw ≠ "expected".toList) →
      (keyLoop tc.array (JsonValue.empty, JsonValue.empty)).2 = val) ∧
    ((∀ k key, k % 2 = 0 → tc.array[k]? = some key → k + 1 < tc.array.length →
        key.raw ≠ "expected".toList) →
      (keyLoop tc.array (JsonValue.empty, JsonValue.empty)).2 = .mk [] [] false) :=
  ⟨fun k key val hk hkey hval hraw hlast =>
      keyLoop_fst_last tc.array _ k key val hk hkey hval hraw hlast,
   fun h => keyLoop_fst_none tc.array _ h,
   fun k key val hk hkey hval hraw hlast =>
      keyLoop_snd_last tc.array _ k key val hk hkey hval hraw hlast,
   fun h => keyLoop_snd_none tc.array _ h⟩

/-- C17 at the grouping `\x7b"x":"input","input":1,"input":2,"input"\x7d` cut after its
last key: the value `"input"` at index 1 is not a key, the key at index 6 has no value,
and of the keys at indices 2 and 4 the last one wins, so the value used is `2`. -/
theorem key_lookup_witness :
    (keyLoop (sampleKeys).array (JsonValue.empty, JsonValue.empty)).1 = .mk ['2'] [] false :=
  (key_lookup sampleKeys).1 4 (.mk "input".toList [] false) (.mk ['2'] [] false)
    (by decide) rfl rfl rfl
    (by
      intro k1 key1 hlt hpar hget hb
      simp [sampleKeys, JsonValue.array] at hb
      omega)


/-! ## C12 -/

theorem armedAt_append (armed : Bool) (xs ys : List Step) :
    armedAt armed (xs ++ ys) = armedAt armed xs ++ armedAt (armedFinally armed xs) ys := by
  induction xs generalizing armed with
  | nil => rfl
  | cons x xs ih => simp [armedAt, armedFinally, ih]

theorem caseSteps_armed (o : Outcome) :
    armedFinally false (caseSteps o) = false ∧
    ∀ p ∈ armedAt false (caseSteps o),
      (p.1 = .call → p.2 = true) ∧ (p.1 = .expire → p.2 = true) ∧
      (p.1 = .setup ∨ p.1 = .record ∨ p.1 = .aggregate ∨ p.1 = .output → p.2 = false) := by
  cases o <;>
    (refine ⟨rfl, ?_⟩
     intro p hp
     simp only [caseSteps, armedAt, armedAfter, List.mem_cons, List.mem_singleton,
       List.not_mem_nil, or_false] at hp
     rcases hp with h | h | h | h | h <;> subst h <;> decide)

theorem caseLoopSteps_armed (outcomes : List Outcome) :
    armedFinally false (outcomes.map caseSteps).flatten = false ∧
    ∀ p ∈ armedAt false (outcomes.map caseSteps).flatten,
      (p.1 = .call → p.2 = true) ∧ (p.1 = .expire → p.2 = true) ∧
      (p.1 = .setup ∨ p.1 = .record ∨ p.1 = .aggregate ∨ p.1 = .output → p.2 = false) := by
  induction outcomes with
  | nil => exact ⟨rfl, fun p hp => by cases hp⟩
  | cons o rest ih =>
    have ho := caseSteps_armed o
    simp only [List.map_cons, List.flatten_cons]
    constructor
    · simp only [armedFinally, List.foldl_append] at ho ih ⊢
      rw [ho.1]
      exact ih.1
    · intro p hp
      rw [armedAt_append, ho.1] at hp
      rcases List.mem_append.mp hp with h | h
      · exact ho.2 p h
      · exact ih.2 p h

/-- C13: in the run of `main` for any outcomes of the candidate calls (return, exception
caught by either `catch` clause, timeout), the deadline flag is set during every candidate
call, the timer expires only while the flag is set, and the flag is clear whenever a
case is set up, a result is recorded, the verdict is aggregated or the report is written,
and at the end of the run. -/
theorem timer_scoping (outcomes : List Outcome) :
    (∀ p ∈ armedAt false (mainSteps outcomes),
      (p.1 = .call → p.2 = true) ∧ (p.1 = .expire → p.2 = true) ∧
      (p.1 = .setup ∨ p.1 = .record ∨ p.1 = .aggregate ∨ p.1 = .output → p.2 = false)) ∧
    armedFinally false (mainSteps outcomes) = false ∧
    (∀ o : Outcome, armedFinally false (caseSteps o) = false) := by
  have h := caseLoopSteps_armed outcomes
  refine ⟨?_, ?_, fun o => (caseSteps_armed o).1⟩
  · intro p hp
    unfold mainSteps at hp
    rw [armedAt_append, h.1] at hp
    rcases List.mem_append.mp hp with h1 | h2
    · exact h.2 p h1
    · simp only [armedAt, armedAfter, List.mem_cons, List.mem_singleton,
        List.not_mem_nil, or_false] at h2
      rcases h2 with e | e <;> subst e <;> decide
  · unfold mainSteps
    simp only [armedFinally, List.foldl_append] at h ⊢
    rw [h.1]
    rfl

/-- C13 at a battery whose first call times out and whose second call throws: the flag
is clear when the second case is set up (the sixth step) and when its result is
recorded. -/
theorem timer_scoping_witness :
    (armedAt false (mainSteps [.deadline, .threw []]))[5]? = some (.setup, false) ∧
    (armedAt false (mainSteps [.deadline, .threw []]))[9]? = some (.record, false) ∧
    armedFinally false (mainSteps [.deadline, .threw []]) = false :=
  ⟨rfl, rfl, (timer_scoping [.deadline, .threw []]).2.1⟩


/-! ## C19 -/

theorem wrapInt_of_inIntRange (x : Int) (h : inIntRange x) : wrapInt x = x := by
  unfold inIntRange at h
  unfold wrapInt
  omega

theorem twoSumLoop_spec (target : Int) :
    ∀ (rest pre : List Int) (m : List (Int × Int)),
      (∀ x ∈ rest, inIntRange (target - x)) →
      (∀ c : Int, (m.lookup c = none ∧ ∀ (k : Nat) (x : Int), pre[k]? = some x → x ≠ c) ∨
        (∃ k : Nat, m.lookup c = some (k : Int) ∧ pre[k]? = some c ∧
          ∀ (k1 : Nat) (x : Int), k < k1 → pre[k1]? = some x → x ≠ c)) →
      (∀ (i j : Nat) (x y : Int), i < j → pre[i]? = some x → pre[j]? = some y → x + y ≠ target) →
      (twoSumLoop target rest (pre.length : Int) m = [] ∧
        ∀ (i j : Nat) (x y : Int), i < j → (pre ++ rest)[i]? = some x → (pre ++ rest)[j]? = some y →
          x + y ≠ target) ∨
      (∃ (i j : Nat) (x y : Int), i < j ∧ (pre ++ rest)[i]? = some x ∧
        (pre ++ rest)[j]? = some y ∧ x + y = target ∧
        twoSumLoop target rest (pre.length : Int) m = [(i : Int), (j : Int)] ∧
        (∀ (i1 j1 : Nat) (x1 y1 : Int), i1 < j1 → j1 < j → (pre ++ rest)[i1]? = some x1 →
          (pre ++ rest)[j1]? = some y1 → x1 + y1 ≠ target) ∧
        (∀ (i1 : Nat) (x1 : Int), i < i1 → i1 < j → (pre ++ rest)[i1]? = some x1 → x1 + y ≠ target)) := by
  intro rest
  induction rest with
  | nil =>
    intro pre m _ _ hno
    left
    refine ⟨rfl, ?_⟩
    simpa using hno
  | cons x rest ih =>
    intro pre m hov hinv hno
    have hw : wrapInt (target - x) = target - x :=
      wrapInt_of_inIntRange _ (hov x (List.mem_cons_self _ _))
    have hxat : (pre ++ x :: rest)[pre.length]? = some x := by
      rw [List.getElem?_append_right (le_refl _)]
      simp
    have hpre : ∀ k, k < pre.length → (pre ++ x :: rest)[k]? = pre[k]? :=
      fun k hk => List.getElem?_append_left hk
    rcases hinv (target - x) with ⟨hnone, hall⟩ | ⟨k, hsome, hk, hlast⟩
    · -- no partner for `x`: the loop goes on
      have hno' : ∀ (i j : Nat) (a b : Int), i < j → (pre ++ [x])[i]? = some a → (pre ++ [x])[j]? = some b →
          a + b ≠ target := by
        intro i j a b hij ha hb
        have hj : j < (pre ++ [x]).length := by
          by_contra hcon
          rw [List.getElem?_eq_none (by omega)] at hb
          cases hb
        simp only [List.length_append, List.length_singleton] at hj
        by_cases hjl : j < pre.length
        · rw [List.getElem?_append_left (by omega)] at ha
          rw [List.getElem?_append_left hjl] at hb
          exact hno i j a b hij ha hb
        · have hje : j = pre.length := by omega
          subst hje
          rw [List.getElem?_append_left hij] at ha
          simp at hb
          subst hb
          intro hsum
          exact hall i a ha (by omega)
      have hinv' : ∀ c : Int,
          (((x, (pre.length : Int)) :: m).lookup c = none ∧
            ∀ (k : Nat) (a : Int), (pre ++ [x])[k]? = some a → a ≠ c) ∨
          (∃ k : Nat, ((x, (pre.length : Int)) :: m).lookup c = some (k : Int) ∧
            (pre ++ [x])[k]? = some c ∧
            ∀ (k1 : Nat) (a : Int), k < k1 → (pre ++ [x])[k1]? = some a → a ≠ c) := by
        intro c
        by_cases hc : c = x
        · right
          subst hc
          refine ⟨pre.length, by simp [List.lookup], by simp, ?_⟩
          intro k1 a hk1 ha
          rw [List.getElem?_eq_none (by simp; omega)] at ha
          cases ha
        · have hbeq : (c == x) = false := by simpa using hc
          rcases hinv c with ⟨h1, h2⟩ | ⟨k, h1, h2, h3⟩
          · left
            refine ⟨by simp [List.lookup, hbeq, h1], ?_⟩
            intro k a ha
            by_cases hkl : k < pre.length
            · rw [List.getElem?_append_left hkl] at ha
              exact h2 k a ha
            · by_cases hke : k = pre.length
              · subst hke
                simp at ha
                subst ha
                exact fun e => hc e.symm
              · rw [List.getElem?_eq_none (by simp; omega)] at ha
                cases ha
          · right
            have hkl : k < pre.length := by
              by_contra hcon
              rw [List.getElem?_eq_none (by omega)] at h2
              cases h2
            refine ⟨k, by simp [List.lookup, hbeq, h1],
              by rw [List.getElem?_append_left hkl]; exact h2, ?_⟩
            intro k1 a hk1 ha
            by_cases hk1l : k1 < pre.length
            · rw [List.getElem?_append_left hk1l] at ha
              exact h3 k1 a hk1 ha
            · by_cases hke : k1 = pre.length
              · subst hke
                simp at ha
                subst ha
                exact fun e => hc e.symm
              · rw [List.getElem?_eq_none (by simp; omega)] at ha
                cases ha
      have hstep : twoSumLoop target (x :: rest) (pre.length : Int) m =
          twoSumLoop target rest (((pre ++ [x]).length : Nat) : Int)
            ((x, (pre.length : Int)) :: m) := by
        rw [twoSumLoop, hw, hnone]
        simp
      have happ : pre ++ [x] ++ rest = pre ++ x :: rest := by simp
      have := ih (pre ++ [x]) ((x, (pre.length : Int)) :: m)
        (fun y hy => hov y (List.mem_cons_of_mem _ hy)) hinv' hno'
      rw [happ, ← hstep] at this
      exact this
    · -- `x` has a partner: the loop returns
      have hkl : k < pre.length := by
        by_contra hcon
        rw [List.getElem?_eq_none (by omega)] at hk
        cases hk
      right
      refine ⟨k, pre.length, target - x, x, hkl, by rw [hpre k hkl]; exact hk, hxat,
        by omega, ?_, ?_, ?_⟩
      · rw [twoSumLoop, hw, hsome]
      · intro i1 j1 x1 y1 h1 h2 ha hb
        rw [hpre i1 (by omega)] at ha
        rw [hpre j1 h2] at hb
        exact hno i1 j1 x1 y1 h1 ha hb
      · intro i1 x1 h1 h2 ha
        rw [hpre i1 h2] at ha
        have := hlast i1 x1 h1 ha
        intro hsum
        exact this (by omega)

/-- C19: for every `nums` and `target` such that no `target - nums[i]` overflows,
`Solution::twoSum` returns the empty list exactly when no indices `i < j` have
`nums[i] + nums[j] = target`; and whenever a pair `i < j` with that sum is such that no
pair ends before `j` and no index strictly between `i` and `j` is a partner of `j`, it
returns `[i, j]`. In every case the result is empty or such a pair. -/
theorem twoSum_spec (nums : List Int) (target : Int)
    (hov : ∀ x ∈ nums, inIntRange (target - x)) :
    (twoSum nums target = [] ↔
      ∀ (i j : Nat) (x y : Int), i < j → nums[i]? = some x → nums[j]? = some y → x + y ≠ target) ∧
    (∀ (i j : Nat) (x y : Int), i < j → nums[i]? = some x → nums[j]? = some y →
      x + y = target →
      (∀ (i1 j1 : Nat) (x1 y1 : Int), i1 < j1 → j1 < j → nums[i1]? = some x1 → nums[j1]? = some y1 →
        x1 + y1 ≠ target) →
      (∀ (i1 : Nat) (x1 : Int), i < i1 → i1 < j → nums[i1]? = some x1 → x1 + y ≠ target) →
      twoSum nums target = [(i : Int), (j : Int)]) ∧
    (twoSum nums target = [] ∨
      ∃ (i j : Nat) (x y : Int), i < j ∧ j < nums.length ∧ nums[i]? = some x ∧
        nums[j]? = some y ∧ x + y = target ∧ twoSum nums target = [(i : Int), (j : Int)]) := by
  have h := twoSumLoop_spec target nums [] [] hov
    (fun c => Or.inl ⟨rfl, fun k x hk => by simp at hk⟩)
    (fun i j x y _ hi => by simp at hi)
  simp only [List.nil_append, List.length_nil, Nat.cast_zero] at h
  have htwo : twoSum nums target = twoSumLoop target nums 0 [] := rfl
  rw [htwo]
  refine ⟨?_, ?_, ?_⟩
  · constructor
    · intro hnil
      rcases h with ⟨_, hno⟩ | ⟨i, j, x, y, _, _, _, _, hres, _⟩
      · exact hno
      · rw [hres] at hnil
        cases hnil
    · intro hno
      rcases h with ⟨hnil, _⟩ | ⟨i, j, x, y, hij, hi, hj, hsum, _, _⟩
      · exact hnil
      · exact absurd hsum (hno i j x y hij hi hj)
  · intro i j x y hij hi hj hsum hmin hmax
    rcases h with ⟨_, hno⟩ | ⟨i0, j0, x0, y0, hij0, hi0, hj0, hsum0, hres, hmin0, hmax0⟩
    · exact absurd hsum (hno i j x y hij hi hj)
    · have hjj : j0 = j := by
        rcases Nat.lt_trichotomy j0 j with hlt | heq | hgt
        · exact absurd hsum0 (hmin i0 j0 x0 y0 hij0 hlt hi0 hj0)
        · exact heq
        · exact absurd hsum (hmin0 i j x y hij hgt hi hj)
      subst hjj
      have hy : y0 = y := by
        rw [hj0] at hj
        exact Option.some.inj hj
      subst hy
      have hii : i0 = i := by
        rcases Nat.lt_trichotomy i0 i with hlt | heq | hgt
        · exact absurd hsum (hmax0 i x hlt hij hi)
        · exact heq
        · exact absurd hsum0 (hmax i0 x0 hgt hij0 hi0)
      subst hii
      exact hres
  · rcases h with ⟨hnil, _⟩ | ⟨i, j, x, y, hij, hi, hj, hsum, hres, _, _⟩
    · exact Or.inl hnil
    · right
      have hjl : j < nums.length := by
        by_contra hcon
        rw [List.getElem?_eq_none (by omega)] at hj
        cases hj
      exact ⟨i, j, x, y, hij, hjl, hi, hj, hsum, hres⟩

/-- C19 at `nums = [3, 3, 3, 1]`, `target = 6`: the pairs are `(0,1)`, `(0,2)`, `(1,2)`;
the smallest second index is `1` and its only partner is `0`, so the result is
`[0, 1]`. -/
theorem twoSum_spec_witness : twoSum [3, 3, 3, 1] 6 = [0, 1] :=
  (twoSum_spec [3, 3, 3, 1] 6 (by decide)).2.1 0 1 3 3 (by decide) rfl rfl rfl
    (by
      intro i1 j1 x1 y1 h1 h2
      omega)
    (by
      intro i1 x1 h1 h2
      omega)


/-! ## C20 -/

theorem ws_progress (s : IStream) :
    (s.ws).unread ≤ s.unread ∧ (s.ws).rest.length ≤ s.rest.length := by
  unfold IStream.ws IStream.unread
  rcases s with ⟨rest, e, f⟩
  have hlen : (rest.dropWhile isspace).length ≤ rest.length :=
    (List.dropWhile_sublist isspace).length_le
  cases e <;> cases f <;> simp only [Bool.or_self, Bool.or_false, Bool.or_true, if_true]
  · simp only [Bool.false_eq_true, if_false]
    refine ⟨?_, hlen⟩
    split <;> omega
  all_goals simp

theorem get_progress (s : IStream) :
    (s.get.2).unread ≤ s.unread ∧ (s.get.2).rest.length ≤ s.rest.length := by
  unfold IStream.get IStream.unread
  rcases s with ⟨rest, e, f⟩
  cases e <;> cases f <;> simp
  cases rest <;> simp

theorem get_some_progress (s s1 : IStream) (c : Char) (h : s.get = (some c, s1)) :
    s1.unread + 1 ≤ s.unread ∧ s1.rest.length + 1 ≤ s.rest.length ∧
      s1.unread = s1.rest.length + 2 := by
  unfold IStream.get at h
  rcases s with ⟨rest, e, f⟩
  cases e <;> cases f <;> simp at h
  cases rest with
  | nil => simp at h
  | cons c1 r =>
    simp at h
    obtain ⟨_, h2⟩ := h
    subst h2
    simp [IStream.unread]

theorem peek_progress (s : IStream) :
    (s.peek.2).unread ≤ s.unread ∧ (s.peek.2).rest.length ≤ s.rest.length := by
  unfold IStream.peek IStream.unread
  rcases s with ⟨rest, e, f⟩
  cases e <;> cases f <;> simp
  cases rest <;> simp

theorem skipIf_progress (ch : Char) (s : IStream) :
    (skipIf ch s).unread ≤ s.unread ∧ (skipIf ch s).rest.length ≤ s.rest.length := by
  unfold skipIf
  have h1 := ws_progress s
  have h2 := peek_progress s.ws
  have h3 := get_progress (s.ws).peek.2
  split
  · exact h1
  · split
    · exact ⟨by omega, by omega⟩
    · exact ⟨by omega, by omega⟩

theorem unread_eq_zero_of_failbit (s : IStream) (h : s.failbit = true) : s.unread = 0 := by
  simp [IStream.unread, h]

theorem unread_pos_of_not_failbit (s : IStream) (h : s.failbit = false) : 0 < s.unread := by
  simp only [IStream.unread, h]
  simp only [Bool.false_eq_true, if_false]
  split <;> omega

theorem stringLoop_progress (s : Str) (prev : Char) (rest : List Char) :
    ((stringLoop s prev rest).2).unread ≤ rest.length + 2 ∧
      ((stringLoop s prev rest).2).rest.length ≤ rest.length := by
  induction rest generalizing s prev with
  | nil => simp [stringLoop, IStream.unread]
  | cons c r ih =>
    unfold stringLoop
    split
    · simp [IStream.unread]
    · have := ih (s ++ [c]) c
      simp only [List.length_cons]
      omega

theorem tokenLoop_progress (s : Str) (rest : List Char) :
    ((tokenLoop s rest).2).unread ≤ rest.length + 2 ∧
      ((tokenLoop s rest).2).rest.length ≤ rest.length := by
  induction rest generalizing s with
  | nil => simp [tokenLoop, IStream.unread]
  | cons c r ih =>
    unfold tokenLoop
    split
    · simp [IStream.unread]
    · have := ih (s ++ [c])
      simp only [List.length_cons]
      omega

theorem arrayLoop_progress (p : IStream → Option (JsonValue × IStream)) (n : Nat)
    (hp : ∀ s : IStream, s.unread < n → ∃ v s1, p s = some (v, s1) ∧
      s1.unread ≤ s.unread ∧ (s1.failbit = true ∨ s1.unread < s.unread) ∧
      s1.rest.length ≤ s.rest.length) :
    ∀ (k : Nat) (s : IStream) (acc : List JsonValue), s.unread < k → s.unread < n →
      ∃ arr s1, arrayLoop p k s acc = some (arr, s1) ∧ s1.unread ≤ s.unread ∧
        s1.rest.length ≤ s.rest.length := by
  intro k
  induction k with
  | zero => intro s acc hk; omega
  | succ k ih =>
    intro s acc hk hn
    have hws := ws_progress s
    have hpk := peek_progress s.ws
    unfold arrayLoop
    by_cases hf : (s.ws).failbit = true
    · exact ⟨acc, s.ws, by simp [hf], hws.1, hws.2⟩
    · by_cases hc : (s.ws).peek.1 = some ']'
      · exact ⟨acc, (s.ws).peek.2, by simp [hf, hc], by omega, by omega⟩
      · obtain ⟨v, s1, hv, hle, hdec, hrl⟩ := hp (s.ws).peek.2 (by omega)
        have hsk := skipIf_progress ',' s1
        have hspos : 0 < s.unread := by
          by_contra h0
          have hsf : s.failbit = true := by
            by_contra hsf
            have := unread_pos_of_not_failbit s (by simpa using hsf)
            omega
          exact hf (ws_failbit_of_failbit s hsf)
        have hlt : (skipIf ',' s1).unread < k := by
          rcases hdec with h | h
          · rw [unread_eq_zero_of_failbit _ (skipIf_failbit ',' s1 h)]
            omega
          · omega
        obtain ⟨arr, s2, harr, hle2, hrl2⟩ := ih (skipIf ',' s1) (acc ++ [v]) hlt (by omega)
        exact ⟨arr, s2, by simp [hf, hc, hv, harr], by omega, by omega⟩

theorem objectLoop_progress (p : IStream → Option (JsonValue × IStream)) (n : Nat)
    (hp : ∀ s : IStream, s.unread < n → ∃ v s1, p s = some (v, s1) ∧
      s1.unread ≤ s.unread ∧ (s1.failbit = true ∨ s1.unread < s.unread) ∧
      s1.rest.length ≤ s.rest.length) :
    ∀ (k : Nat) (s : IStream) (acc : List JsonValue), s.unread < k → s.unread < n →
      ∃ arr s1, objectLoop p k s acc = some (arr, s1) ∧ s1.unread ≤ s.unread ∧
        s1.rest.length ≤ s.rest.length := by
  intro k
  induction k with
  | zero => intro s acc hk; omega
  | succ k ih =>
    intro s acc hk hn
    have hws := ws_progress s
    have hpk := peek_progress s.ws
    unfold objectLoop
    by_cases hf : (s.ws).failbit = true
    · exact ⟨acc, s.ws, by simp [hf], hws.1, hws.2⟩
    · by_cases hc : (s.ws).peek.1 = some '}'
      · exact ⟨acc, (s.ws).peek.2, by simp [hf, hc], by omega, by omega⟩
      · obtain ⟨key, s1, hkey, hle, hdec, hrl⟩ := hp (s.ws).peek.2 (by omega)
        have hsk := skipIf_progress ':' s1
        obtain ⟨val, s2, hval, hle2, _, hrl2⟩ := hp (skipIf ':' s1) (by omega)
        have hsk2 := skipIf_progress ',' s2
        have hspos : 0 < s.unread := by
          by_contra h0
          have hsf : s.failbit = true := by
            by_contra hsf
            have := unread_pos_of_not_failbit s (by simpa using hsf)
            omega
          exact hf (ws_failbit_of_failbit s hsf)
        have hlt : (skipIf ',' s2).unread < k := by
          rcases hdec with h | h
          · have h1 := unread_eq_zero_of_failbit _ (skipIf_failbit ':' s1 h)
            omega
          · omega
        obtain ⟨arr, s3, harr, hle3, hrl3⟩ := ih (skipIf ',' s2) (acc ++ [key, val]) hlt
          (by omega)
        exact ⟨arr, s3, by simp [hf, hc, hkey, hval, harr], by omega, by omega⟩

theorem parseJsonFuel_progress : ∀ (n : Nat) (s : IStream), s.unread < n →
    ∃ v s1, parseJsonFuel n s = some (v, s1) ∧ s1.unread ≤ s.unread ∧
      (s1.failbit = true ∨ s1.unread < s.unread) ∧ s1.rest.length ≤ s.rest.length ∧
      (s1.failbit = true ∨ s1.rest.length < s.rest.length) := by
  intro n
  induction n with
  | zero => intro s h; omega
  | succ n ih =>
    intro s hn
    have hws := ws_progress s
    have ih' : ∀ s : IStream, s.unread < n → ∃ v s1, parseJsonFuel n s = some (v, s1) ∧
        s1.unread ≤ s.unread ∧ (s1.failbit = true ∨ s1.unread < s.unread) ∧
        s1.rest.length ≤ s.rest.length := by
      intro s hs
      obtain ⟨v, s1, h1, h2, h3, h4, _⟩ := ih s hs
      exact ⟨v, s1, h1, h2, h3, h4⟩
    unfold parseJsonFuel
    by_cases hf : (s.ws).failbit = true
    · exact ⟨JsonValue.empty, s.ws, by simp [hf], hws.1, Or.inl hf, hws.2, Or.inl hf⟩
    · simp only [hf, Bool.false_eq_true, if_false]
      rcases hg : (s.ws).get with ⟨oc, s1⟩
      cases oc with
      | none =>
        have hfail := get_none_failbit _ _ hg
        have hle := get_progress s.ws
        rw [hg] at hle
        exact ⟨JsonValue.empty, s1, rfl, by simpa using le_trans hle.1 hws.1, Or.inl hfail,
          by simpa using le_trans hle.2 hws.2, Or.inl hfail⟩
      | some c =>
        obtain ⟨hw, hr, hs1⟩ := get_some_progress _ _ _ hg
        simp only
        by_cases h1 : c = '['
        · obtain ⟨arr, s2, harr, hle, hrl⟩ := arrayLoop_progress (parseJsonFuel n) n ih' n s1 []
            (by omega) (by omega)
          have hg2 := get_progress s2
          exact ⟨.mk [] arr true, s2.get.2, by simp [h1, harr], by omega, Or.inr (by omega),
            by omega, Or.inr (by omega)⟩
        · by_cases h2 : c = '{'
          · obtain ⟨arr, s2, harr, hle, hrl⟩ := objectLoop_progress (parseJsonFuel n) n ih' n
              s1 [] (by omega) (by omega)
            have hg2 := get_progress s2
            exact ⟨.mk [] arr false, s2.get.2, by simp [h1, h2, harr], by omega,
              Or.inr (by omega), by omega, Or.inr (by omega)⟩
          · by_cases h3 : c = '"'
            · have hb := stringLoop_progress [] (Char.ofNat 0) s1.rest
              exact ⟨.mk (stringLoop [] (Char.ofNat 0) s1.rest).1 [] false,
                (stringLoop [] (Char.ofNat 0) s1.rest).2, by simp [h1, h2, h3], by omega,
                Or.inr (by omega), by omega, Or.inr (by omega)⟩
            · have hb := tokenLoop_progress [c] s1.rest
              exact ⟨.mk (tokenLoop [c] s1.rest).1 [] false, (tokenLoop [c] s1.rest).2,
                by simp [h1, h2, h3], by omega, Or.inr (by omega), by omega,
                Or.inr (by omega)⟩

/-- C20: `parseJson` returns a node on every input text: the bound `|text| + 3` on the
recursion depth and on the iterations of each loop always suffices, and `parseJson` is
that result. Every iteration of the array loop and of the object loop that goes on to a
next iteration hands it a stream that is failed (exhausted) or has strictly fewer unread
characters. -/
theorem parser_totality (text : Str) :
    (∃ v s1, parseJsonFuel (text.length + 3) (IStream.ofText text) = some (v, s1) ∧
      parseJson (IStream.ofText text) = (v, s1)) ∧
    (∀ (n k : Nat) (s : IStream) (acc : List JsonValue), s.unread < n →
      (s.ws).failbit = false → (s.ws).peek.1 ≠ some ']' →
      ∃ v s1, arrayLoop (parseJsonFuel n) (k + 1) s acc
          = arrayLoop (parseJsonFuel n) k s1 (acc ++ [v]) ∧
        (s1.failbit = true ∨ s1.rest.length < s.rest.length)) ∧
    (∀ (n k : Nat) (s : IStream) (acc : List JsonValue), s.unread < n →
      (s.ws).failbit = false → (s.ws).peek.1 ≠ some '}' →
      ∃ key val s2, objectLoop (parseJsonFuel n) (k + 1) s acc
          = objectLoop (parseJsonFuel n) k s2 (acc ++ [key, val]) ∧
        (s2.failbit = true ∨ s2.rest.length < s.rest.length)) := by
  refine ⟨?_, ?_, ?_⟩
  · obtain ⟨v, s1, h, _⟩ := parseJsonFuel_progress (text.length + 3) (IStream.ofText text)
      (by simp [IStream.unread, IStream.ofText])
    exact ⟨v, s1, h, parseJson_of_fuel _ _ _ h⟩
  · intro n k s acc hn hf hc
    have hws := ws_progress s
    have hpk := peek_progress s.ws
    obtain ⟨v, s1, hv, _, _, hrl, hdec⟩ := parseJsonFuel_progress n (s.ws).peek.2 (by omega)
    have hsk := skipIf_progress ',' s1
    refine ⟨v, skipIf ',' s1, ?_, ?_⟩
    · rw [arrayLoop]
      simp [hf, hc, hv]
    · rcases hdec with h | h
      · exact Or.inl (skipIf_failbit ',' s1 h)
      · exact Or.inr (by omega)
  · intro n k s acc hn hf hc
    have hws := ws_progress s
    have hpk := peek_progress s.ws
    obtain ⟨key, s1, hkey, hu1, _, hrl, hdec⟩ :=
      parseJsonFuel_progress n (s.ws).peek.2 (by omega)
    have hsk := skipIf_progress ':' s1
    obtain ⟨val, s2, hval, _, _, hrl2, _⟩ :=
      parseJsonFuel_progress n (skipIf ':' s1) (by omega)
    have hsk2 := skipIf_progress ',' s2
    refine ⟨key, val, skipIf ',' s2, ?_, ?_⟩
    · rw [objectLoop]
      simp [hf, hc, hkey, hval]
    · rcases hdec with h | h
      · have h1 := skipIf_failbit ':' s1 h
        obtain ⟨_, _, hval', _, _, _, hdec2⟩ :=
          parseJsonFuel_progress n (skipIf ':' s1) (by omega)
        rw [hval] at hval'
        cases hval'
        rcases hdec2 with h2 | h2
        · exact Or.inl (skipIf_failbit ',' s2 h2)
        · exact Or.inr (by omega)
      · exact Or.inr (by omega)


/-! ## Parsing texts with layout -/

theorem isWs_iff (w : Str) : isWs w = true ↔ ∀ c ∈ w, isspace c = true := by
  simp [isWs, List.all_eq_true]

theorem ws_skip (w : Str) (c : Char) (r : List Char) (hw : isWs w = true)
    (hc : isspace c = false) :
    ({ rest := w ++ c :: r, eofbit := false, failbit := false } : IStream).ws =
      { rest := c :: r, eofbit := false, failbit := false } := by
  have h := dropWhile_isspace_append w (c :: r) ((isWs_iff w).mp hw)
    (fun x hx => by simp at hx; subst hx; exact hc)
  simp [IStream.ws, h]

theorem parseJsonFuel_skip_ws (n : Nat) (w : Str) (c : Char) (r : List Char)
    (hw : isWs w = true) (hc : isspace c = false) :
    parseJsonFuel n { rest := w ++ c :: r, eofbit := false, failbit := false } =
      parseJsonFuel n { rest := c :: r, eofbit := false, failbit := false } := by
  cases n with
  | zero => rfl
  | succ n =>
    rw [parseJsonFuel, parseJsonFuel, ws_skip w c r hw hc, ws_good_cons c r hc]

theorem arrayLoop_step_ws (p : IStream → Option (JsonValue × IStream)) (k : Nat) (w : Str)
    (c : Char) (r : List Char) (acc : List JsonValue) (hw : isWs w = true)
    (hc : isspace c = false) (hne : c ≠ ']') :
    arrayLoop p (k + 1) { rest := w ++ c :: r, eofbit := false, failbit := false } acc =
      match p { rest := c :: r, eofbit := false, failbit := false } with
      | none => none
      | some (v, s1) => arrayLoop p k (skipIf ',' s1) (acc ++ [v]) := by
  rw [arrayLoop, ws_skip w c r hw hc, peek_good_cons]
  simp [hne]

theorem arrayLoop_close_ws (p : IStream → Option (JsonValue × IStream)) (k : Nat) (w : Str)
    (r : List Char) (acc : List JsonValue) (hw : isWs w = true) :
    arrayLoop p (k + 1) { rest := w ++ ']' :: r, eofbit := false, failbit := false } acc =
      some (acc, { rest := ']' :: r, eofbit := false, failbit := false }) := by
  rw [arrayLoop, ws_skip w ']' r hw (by decide), peek_good_cons]
  simp

theorem objectLoop_step_ws (p : IStream → Option (JsonValue × IStream)) (k : Nat) (w : Str)
    (c : Char) (r : List Char) (acc : List JsonValue) (hw : isWs w = true)
    (hc : isspace c = false) (hne : c ≠ '}') :
    objectLoop p (k + 1) { rest := w ++ c :: r, eofbit := false, failbit := false } acc =
      match p { rest := c :: r, eofbit := false, failbit := false } with
      | none => none
      | some (key, s1) =>
        match p (skipIf ':' s1) with
        | none => none
        | some (val, s2) => objectLoop p k (skipIf ',' s2) (acc ++ [key, val]) := by
  rw [objectLoop, ws_skip w c r hw hc, peek_good_cons]
  simp [hne]

theorem objectLoop_close_ws (p : IStream → Option (JsonValue × IStream)) (k : Nat) (w : Str)
    (r : List Char) (acc : List JsonValue) (hw : isWs w = true) :
    objectLoop p (k + 1) { rest := w ++ '}' :: r, eofbit := false, failbit := false } acc =
      some (acc, { rest := '}' :: r, eofbit := false, failbit := false }) := by
  rw [objectLoop, ws_skip w '}' r hw (by decide), peek_good_cons]
  simp

theorem skipIf_hit_ws (ch : Char) (w : Str) (r : List Char) (hw : isWs w = true)
    (hc : isspace ch = false) :
    skipIf ch { rest := w ++ ch :: r, eofbit := false, failbit := false } =
      { rest := r, eofbit := false, failbit := false } := by
  simp [skipIf, ws_skip w ch r hw hc, peek_good_cons, get_good_cons]

theorem skipIf_miss_ws (ch c : Char) (w : Str) (r : List Char) (hw : isWs w = true)
    (hc : isspace c = false) (hne : c ≠ ch) :
    skipIf ch { rest := w ++ c :: r, eofbit := false, failbit := false } =
      { rest := c :: r, eofbit := false, failbit := false } := by
  simp [skipIf, ws_skip w c r hw hc, peek_good_cons, hne]

theorem isWs_append (a b : Str) (ha : isWs a = true) (hb : isWs b = true) :
    isWs (a ++ b) = true := by
  rw [isWs_iff] at *
  intro c hc
  rcases List.mem_append.mp hc with h | h
  · exact ha c h
  · exact hb c h

theorem stringLoop_strOk (t : Str) : ∀ (s : Str) (prev : Char) (r : List Char),
    strOkFrom prev t = true →
    stringLoop s prev (t ++ '"' :: r) =
      (s ++ t, { rest := r, eofbit := false, failbit := false }) := by
  induction t with
  | nil =>
    intro s prev r h
    have hp : prev ≠ '\\' := by simpa [strOkFrom] using h
    simp [stringLoop, hp]
  | cons c t ih =>
    intro s prev r h
    simp only [strOkFrom, Bool.and_eq_true, Bool.or_eq_true, bne_iff_ne, ne_eq,
      beq_iff_eq] at h
    have hstep : ¬ (c = '"' ∧ prev ≠ '\\') := by
      rintro ⟨h1, h2⟩
      rcases h.1 with h3 | h3
      · exact h3 h1
      · exact h2 h3
    rw [List.cons_append, stringLoop, if_neg hstep, ih _ _ _ h.2]
    simp

theorem tokOk_cons (t : Str) (h : tokOk t = true) :
    ∃ c t1, t = c :: t1 ∧ (c ≠ '[' ∧ c ≠ '{' ∧ c ≠ '"' ∧ isspace c = false) ∧
      (c ≠ ']' ∧ c ≠ '}') ∧
      ∀ x ∈ t1, isspace x = false ∧ x ≠ ',' ∧ x ≠ ']' ∧ x ≠ '}' := by
  rcases t with _ | ⟨c, t1⟩
  · simp [tokOk] at h
  · simp only [tokOk, Bool.and_eq_true, bne_iff_ne, ne_eq, List.all_eq_true,
      Bool.not_eq_true', List.mem_cons, forall_eq_or_imp] at h
    refine ⟨c, t1, rfl, ⟨h.1.1.1, h.1.1.2, h.1.2, h.2.1.1.1.1⟩, ⟨h.2.1.1.2, h.2.1.2⟩, ?_⟩
    intro x hx
    have := h.2.2 x hx
    exact ⟨this.1.1.1, this.1.1.2, this.1.2, this.2⟩


theorem render_head (d : Doc) (h : d.wf = true) (k : Str) :
    ∃ c r0, d.render k = c :: r0 ∧ isspace c = false ∧ c ≠ ']' ∧ c ≠ '}' := by
  cases d with
  | tok t =>
    obtain ⟨c, t1, ht, hc, hb, _⟩ := tokOk_cons t (by simpa [Doc.wf] using h)
    exact ⟨c, t1 ++ k, by simp [Doc.render, ht], hc.2.2.2, hb.1, hb.2⟩
  | str t => exact ⟨'"', _, rfl, by decide, by decide, by decide⟩
  | arr items close => exact ⟨'[', _, rfl, by decide, by decide, by decide⟩
  | obj members close => exact ⟨'{', _, rfl, by decide, by decide, by decide⟩

theorem stopsToken_ws_append (w : Str) (dl : Char) (k : Str) (hw : isWs w = true)
    (hd : dl = ',' ∨ dl = ']' ∨ dl = '}') : stopsToken (w ++ dl :: k) = true := by
  cases w with
  | nil => rcases hd with h | h | h <;> subst h <;> simp [stopsToken]
  | cons c w =>
    have hc : isspace c = true := (isWs_iff _).mp hw c (List.mem_cons_self _ _)
    simp [stopsToken, hc]

theorem stopsToken_items (post close : Str) (rest : Items) (dl : Char) (k : Str)
    (hpost : isWs post = true) (hclose : isWs close = true) (hd : dl = ']' ∨ dl = '}') :
    stopsToken (post ++ rest.more (close ++ dl :: k)) = true := by
  cases rest with
  | nil =>
    simp only [Items.more]
    rw [← List.append_assoc]
    exact stopsToken_ws_append _ dl k (isWs_append _ _ hpost hclose) (Or.inr hd)
  | cons pre d post1 rest1 =>
    simp only [Items.more]
    exact stopsToken_ws_append post ',' _ hpost (Or.inl rfl)

theorem stopsToken_members (post close : Str) (rest : Members) (dl : Char) (k : Str)
    (hpost : isWs post = true) (hclose : isWs close = true) (hd : dl = ']' ∨ dl = '}') :
    stopsToken (post ++ rest.more (close ++ dl :: k)) = true := by
  cases rest with
  | nil =>
    simp only [Members.more]
    rw [← List.append_assoc]
    exact stopsToken_ws_append _ dl k (isWs_append _ _ hpost hclose) (Or.inr hd)
  | cons preKey key preColon preVal val post1 rest1 =>
    simp only [Members.more]
    exact stopsToken_ws_append post ',' _ hpost (Or.inl rfl)

theorem items_tail (p : IStream → Option (JsonValue × IStream)) (rest : Items)
    (post close k : Str) (acc : List JsonValue) (kk : Nat)
    (hpost : isWs post = true) (hclose : isWs close = true) (hkk : 1 ≤ kk)
    (hrest : arrayLoop p kk
        { rest := rest.render (close ++ ']' :: k), eofbit := false, failbit := false } acc =
      some (acc ++ rest.values, { rest := ']' :: k, eofbit := false, failbit := false })) :
    arrayLoop p kk (skipIf ','
        { rest := post ++ rest.more (close ++ ']' :: k), eofbit := false, failbit := false })
        acc =
      some (acc ++ rest.values, { rest := ']' :: k, eofbit := false, failbit := false }) := by
  cases rest with
  | nil =>
    obtain ⟨k1, rfl⟩ := Nat.exists_eq_succ_of_ne_zero (by omega : kk ≠ 0)
    simp only [Items.more, Items.values, List.append_nil]
    rw [← List.append_assoc, skipIf_miss_ws ',' ']' _ k (isWs_append _ _ hpost hclose)
      (by decide) (by decide)]
    have := arrayLoop_close_ws p k1 [] k acc rfl
    simpa using this
  | cons pre d post1 rest1 =>
    simp only [Items.more]
    rw [skipIf_hit_ws ',' post _ hpost (by decide)]
    exact hrest

theorem members_tail (p : IStream → Option (JsonValue × IStream)) (rest : Members)
    (post close k : Str) (acc : List JsonValue) (kk : Nat)
    (hpost : isWs post = true) (hclose : isWs close = true) (hkk : 1 ≤ kk)
    (hrest : objectLoop p kk
        { rest := rest.render (close ++ '}' :: k), eofbit := false, failbit := false } acc =
      some (acc ++ rest.values, { rest := '}' :: k, eofbit := false, failbit := false })) :
    objectLoop p kk (skipIf ','
        { rest := post ++ rest.more (close ++ '}' :: k), eofbit := false, failbit := false })
        acc =
      some (acc ++ rest.values, { rest := '}' :: k, eofbit := false, failbit := false }) := by
  cases rest with
  | nil =>
    obtain ⟨k1, rfl⟩ := Nat.exists_eq_succ_of_ne_zero (by omega : kk ≠ 0)
    simp only [Members.more, Members.values, List.append_nil]
    rw [← List.append_assoc, skipIf_miss_ws ',' '}' _ k (isWs_append _ _ hpost hclose)
      (by decide) (by decide)]
    have := objectLoop_close_ws p k1 [] k acc rfl
    simpa using this
  | cons preKey key preColon preVal val post1 rest1 =>
    simp only [Members.more]
    rw [skipIf_hit_ws ',' post _ hpost (by decide)]
    exact hrest

theorem fuel_pos_items (items : Items) : 1 ≤ items.fuel := by
  cases items <;> simp [Items.fuel]

theorem fuel_pos_members (members : Members) : 1 ≤ members.fuel := by
  cases members <;> simp [Members.fuel]

mutual
theorem parse_doc : ∀ (d : Doc), d.wf = true → ∀ (n : Nat), d.fuel ≤ n → ∀ (k : Str),
    ((∃ t, d = .tok t) → stopsToken k = true) →
    parseJsonFuel n { rest := d.render k, eofbit := false, failbit := false } =
      some (d.value, { rest := k, eofbit := false, failbit := false })
  | .tok t, hwf, n, hn, k, hk => by
    obtain ⟨c, t1, ht, hc, _, hall⟩ := tokOk_cons t (by simpa [Doc.wf] using hwf)
    obtain ⟨n1, rfl⟩ := Nat.exists_eq_succ_of_ne_zero
      (by simp [Doc.fuel] at hn; omega : n ≠ 0)
    have hstop := hk ⟨t, rfl⟩
    rcases k with _ | ⟨d0, r0⟩
    · simp [stopsToken] at hstop
    · have hd0 : isspace d0 = true ∨ d0 = ',' ∨ d0 = ']' ∨ d0 = '}' := by
        simpa [stopsToken, or_assoc] using hstop
      subst ht
      exact parseJsonFuel_token n1 c t1 d0 r0 hc hall hd0
  | .str t, hwf, n, hn, k, _ => by
    obtain ⟨n1, rfl⟩ := Nat.exists_eq_succ_of_ne_zero
      (by simp [Doc.fuel] at hn; omega : n ≠ 0)
    have hs : strOkFrom (Char.ofNat 0) t = true := by simpa [Doc.wf, strOk] using hwf
    simp only [Doc.render, Doc.value]
    rw [parseJsonFuel_quote, stringLoop_strOk t [] _ k hs]
    simp
  | .arr items close, hwf, n, hn, k, _ => by
    have ih := parse_items items
    simp only [Doc.wf, Bool.and_eq_true] at hwf
    simp only [Doc.fuel] at hn
    obtain ⟨n1, rfl⟩ := Nat.exists_eq_succ_of_ne_zero (by omega : n ≠ 0)
    simp only [Doc.render, Doc.value]
    rw [parseJsonFuel_bracket, ih hwf.1 n1 (by omega) n1 (by omega) close k [] hwf.2]
    simp [get_good_cons]
  | .obj members close, hwf, n, hn, k, _ => by
    have ih := parse_members members
    simp only [Doc.wf, Bool.and_eq_true] at hwf
    simp only [Doc.fuel] at hn
    obtain ⟨n1, rfl⟩ := Nat.exists_eq_succ_of_ne_zero (by omega : n ≠ 0)
    simp only [Doc.render, Doc.value]
    rw [parseJsonFuel_brace, ih hwf.1 n1 (by omega) n1 (by omega) close k [] hwf.2]
    simp [get_good_cons]
theorem parse_items : ∀ (items : Items), items.wf = true → ∀ (n : Nat), items.fuel ≤ n →
    ∀ (kk : Nat), items.fuel ≤ kk → ∀ (close k : Str) (acc : List JsonValue),
    isWs close = true →
    arrayLoop (parseJsonFuel n) kk
        { rest := items.render (close ++ ']' :: k), eofbit := false, failbit := false } acc =
      some (acc ++ items.values, { rest := ']' :: k, eofbit := false, failbit := false })
  | .nil, _, n, _, kk, hkk, close, k, acc, hclose => by
    obtain ⟨k1, rfl⟩ := Nat.exists_eq_succ_of_ne_zero
      (by simp [Items.fuel] at hkk; omega : kk ≠ 0)
    simp only [Items.render, Items.values, List.append_nil]
    exact arrayLoop_close_ws _ k1 close k acc hclose
  | .cons pre d post rest, hwf, n, hn, kk, hkk, close, k, acc, hclose => by
    have ihd := parse_doc d
    have ihr := parse_items rest
    simp only [Items.wf, Bool.and_eq_true] at hwf
    simp only [Items.fuel] at hn hkk
    have hfr := fuel_pos_items rest
    obtain ⟨k1, rfl⟩ := Nat.exists_eq_succ_of_ne_zero (by omega : kk ≠ 0)
    obtain ⟨c, r0, hr, hcs, hcb, _⟩ := render_head d hwf.1.1.2
      (post ++ rest.more (close ++ ']' :: k))
    simp only [Items.render, Items.values]
    rw [hr, arrayLoop_step_ws _ k1 pre c r0 acc hwf.1.1.1 hcs hcb, ← hr,
      ihd hwf.1.1.2 n (by omega) _
        (fun _ => stopsToken_items post close rest ']' k hwf.1.2 hclose (Or.inl rfl))]
    simp only
    have := items_tail (parseJsonFuel n) rest post close k (acc ++ [d.value]) k1 hwf.1.2
      hclose (by omega) (ihr hwf.2 n (by omega) k1 (by omega) close k _ hclose)
    rw [this]
    simp
theorem parse_members : ∀ (members : Members), members.wf = true → ∀ (n : Nat),
    members.fuel ≤ n → ∀ (kk : Nat), members.fuel ≤ kk →
    ∀ (close k : Str) (acc : List JsonValue), isWs close = true →
    objectLoop (parseJsonFuel n) kk
        { rest := members.render (close ++ '}' :: k), eofbit := false, failbit := false } acc =
      some (acc ++ members.values, { rest := '}' :: k, eofbit := false, failbit := false })
  | .nil, _, n, _, kk, hkk, close, k, acc, hclose => by
    obtain ⟨k1, rfl⟩ := Nat.exists_eq_succ_of_ne_zero
      (by simp [Members.fuel] at hkk; omega : kk ≠ 0)
    simp only [Members.render, Members.values, List.append_nil]
    exact objectLoop_close_ws _ k1 close k acc hclose
  | .cons preKey key preColon preVal val post rest, hwf, n, hn, kk, hkk, close, k, acc,
      hclose => by
    have ihd := parse_doc val
    have ihr := parse_members rest
    simp only [Members.wf, Bool.and_eq_true] at hwf
    simp only [Members.fuel] at hn hkk
    have hfr := fuel_pos_members rest
    obtain ⟨k1, rfl⟩ := Nat.exists_eq_succ_of_ne_zero (by omega : kk ≠ 0)
    obtain ⟨n1, rfl⟩ := Nat.exists_eq_succ_of_ne_zero (by omega : n ≠ 0)
    obtain ⟨c, r0, hr, hcs, _, _⟩ := render_head val hwf.1.1.2
      (post ++ rest.more (close ++ '}' :: k))
    have hs : strOkFrom (Char.ofNat 0) key = true := by simpa [strOk] using hwf.1.1.1.1.1.2
    simp only [Members.render, Members.values]
    rw [objectLoop_step_ws _ k1 preKey '"' _ acc hwf.1.1.1.1.1.1 (by decide) (by decide),
      parseJsonFuel_quote, stringLoop_strOk key [] _ _ hs]
    simp only [List.nil_append]
    rw [skipIf_hit_ws ':' preColon _ hwf.1.1.1.1.2 (by decide), hr,
      parseJsonFuel_skip_ws (n1 + 1) preVal c r0 hwf.1.1.1.2 hcs, ← hr,
      ihd hwf.1.1.2 (n1 + 1) (by omega) _
        (fun _ => stopsToken_members post close rest '}' k hwf.1.2 hclose (Or.inr rfl))]
    simp only
    have := members_tail (parseJsonFuel (n1 + 1)) rest post close k
      (acc ++ [JsonValue.mk key [] false, val.value]) k1 hwf.1.2
      hclose (by omega) (ihr hwf.2 (n1 + 1) (by omega) k1 (by omega) close k _ hclose)
    rw [this]
    simp
end


mutual
theorem strip_value : ∀ (d : Doc), d.strip.value = d.value
  | .tok _ => rfl
  | .str _ => rfl
  | .arr items _ => by simp only [Doc.strip, Doc.value, strip_values items]
  | .obj members _ => by simp only [Doc.strip, Doc.value, strip_member_values members]
theorem strip_values : ∀ (items : Items), items.strip.values = items.values
  | .nil => rfl
  | .cons _ d _ rest => by
    simp only [Items.strip, Items.values, strip_value d, strip_values rest]
theorem strip_member_values : ∀ (members : Members), members.strip.values = members.values
  | .nil => rfl
  | .cons _ _ _ _ val _ rest => by
    simp only [Members.strip, Members.values, strip_value val, strip_member_values rest]
end

theorem stopsToken_of_ws (post : Str) (hne : post ≠ []) (hpost : isWs post = true) :
    stopsToken post = true := by
  rcases post with _ | ⟨c, r⟩
  · exact absurd rfl hne
  · have hc : isspace c = true := (isWs_iff _).mp hpost c (List.mem_cons_self _ _)
    simp [stopsToken, hc]

/-- The tree of a well-formed text with layout, between leading and trailing
whitespace, is the tree the `Doc` stands for. -/
theorem parseJson_doc (d : Doc) (pre post : Str) (hwf : d.wf = true)
    (hpre : isWs pre = true) (hpost : isWs post = true) :
    (parseJson (IStream.ofText (pre ++ d.render post))).1 = d.value := by
  obtain ⟨c, r0, hr, hcs, _, _⟩ := render_head d hwf post
  by_cases hstop : (∃ t, d = .tok t) ∧ post = []
  · obtain ⟨⟨t, ht⟩, hp⟩ := hstop
    subst ht hp
    obtain ⟨c1, t1, ht1, hc1, _, hall⟩ := tokOk_cons t (by simpa [Doc.wf] using hwf)
    subst ht1
    have h : parseJsonFuel 1
        { rest := pre ++ c1 :: t1, eofbit := false, failbit := false } =
        some (.mk (c1 :: t1) [] false, { rest := [], eofbit := true, failbit := false }) := by
      rw [parseJsonFuel_skip_ws 1 pre c1 t1 hpre hc1.2.2.2, parseJsonFuel,
        ws_good_cons _ _ hc1.2.2.2, get_good_cons]
      simp only [Bool.false_eq_true, if_false, hc1.1, hc1.2.1, hc1.2.2.1]
      rw [tokenLoop_end t1 [c1] hall]
      simp
    have h2 := parseJson_of_fuel 1 _ _ h
    simp only [Doc.render, List.append_nil, IStream.ofText]
    rw [h2]
    rfl
  · have hk : (∃ t, d = .tok t) → stopsToken post = true := by
      intro ht
      have hne : post ≠ [] := fun e => hstop ⟨ht, e⟩
      exact stopsToken_of_ws post hne hpost
    have h := parse_doc d hwf d.fuel (le_refl _) post hk
    have h1 : parseJsonFuel d.fuel
        { rest := pre ++ d.render post, eofbit := false, failbit := false } =
        some (d.value, { rest := post, eofbit := false, failbit := false }) := by
      rw [hr, parseJsonFuel_skip_ws d.fuel pre c r0 hpre hcs, ← hr]
      exact h
    have h2 := parseJson_of_fuel d.fuel _ _ h1
    simp only [IStream.ofText]
    rw [h2]

/-! ## C16 -/

/-- C16: let `d1` and `d2` be two well-formed texts with layout that have the same tokens
and differ only in the whitespace before and after the structural characters and between
the tokens (`d1.strip = d2.strip`), each between any leading and trailing whitespace.
Then `parseJson` returns the same tree on both texts, the tree the tokens stand for; in
particular on a text and on the text with all its whitespace removed. -/
theorem whitespace_insignificance (d1 d2 : Doc) (pre1 post1 pre2 post2 : Str)
    (hwf1 : d1.wf = true) (hwf2 : d2.wf = true) (hsame : d1.strip = d2.strip)
    (hpre1 : isWs pre1 = true) (hpost1 : isWs post1 = true)
    (hpre2 : isWs pre2 = true) (hpost2 : isWs post2 = true) :
    (parseJson (IStream.ofText (pre1 ++ d1.render post1))).1 =
      (parseJson (IStream.ofText (pre2 ++ d2.render post2))).1 ∧
    (parseJson (IStream.ofText (pre1 ++ d1.render post1))).1 = d1.value ∧
    d1.strip.value = d1.value := by
  have h1 := parseJson_doc d1 pre1 post1 hwf1 hpre1 hpost1
  have h2 := parseJson_doc d2 pre2 post2 hwf2 hpre2 hpost2
  refine ⟨?_, h1, strip_value d1⟩
  rw [h1, h2, ← strip_value d1, ← strip_value d2, hsame]

/-- C16 at a battery of one case: the text with whitespace in every gap and the compact
text give the same tree. -/
theorem whitespace_insignificance_witness :
    ([' '] ++ sampleDoc.render ['\n'] =
      " [ \x7b\"input\" : [ [2 , 7] , 9 ] , \"expected\":[0,1] \x7d ]\n".toList) ∧
    ([] ++ sampleDoc.strip.render [] =
      "[\x7b\"input\":[[2,7],9],\"expected\":[0,1]\x7d]".toList) ∧
    (parseJson (IStream.ofText ([' '] ++ sampleDoc.render ['\n']))).1 =
      (parseJson (IStream.ofText ([] ++ sampleDoc.strip.render []))).1 :=
  ⟨rfl, rfl, (whitespace_insignificance sampleDoc sampleDoc.strip [' '] ['\n'] [] []
    (by decide) (by decide) rfl (by decide) (by decide) (by decide) (by decide)).1⟩


/-! ## C18 -/

/-- C20 at the truncated input `[\x7b"a` (unclosed sequence, unclosed grouping,
unterminated string): the parser returns within the bound `|text| + 3`; and at the
stream `1,2]` one iteration of the array loop hands on a shorter stream. -/
theorem parser_totality_witness :
    (∃ v s1, parseJsonFuel ("[\x7b\"a".toList.length + 3) (IStream.ofText "[\x7b\"a".toList)
        = some (v, s1) ∧
      parseJson (IStream.ofText "[\x7b\"a".toList) = (v, s1)) ∧
    (∃ v s1, arrayLoop (parseJsonFuel 7) (0 + 1) (IStream.ofText "1,2]".toList) []
        = arrayLoop (parseJsonFuel 7) 0 s1 ([] ++ [v]) ∧
      (s1.failbit = true ∨ s1.rest.length < (IStream.ofText "1,2]".toList).rest.length)) :=
  ⟨(parser_totality "[\x7b\"a".toList).1,
   (parser_totality []).2.1 7 0 (IStream.ofText "1,2]".toList) [] (by decide) rfl
     (by decide)⟩

end Loco
